import Mathlib

/-!
Verification of the concordance-index implementation in `src/eval/cindex.py`.

The Python code operates on numpy float arrays; floats are modelled as `ℚ`,
machine integer counters as `ℤ`/`ℕ`, numpy boolean arrays as `List Bool`.
Python exceptions are modelled by `Except CIError`; the NaN produced by the
float division `0.0 / 0.0` is modelled by `Option ℚ` being `none`.
-/

namespace CIndex

/-- The distinct failures the pipeline can raise (each a distinct Python
exception site). -/
inductive CIError
  /-- Models the `sklearn.utils.check_consistent_length` ValueError. -/
  | inconsistentLength
  /-- Models `ValueError("Need a minimum of two samples")` in `_check_inputs`. -/
  | minTwoSamples
  /-- Models `ValueError("All samples are censored")` in `_check_inputs`. -/
  | allCensored
  /-- Models `NoComparablePairException` in `_estimate_concordance_index`. -/
  | noComparablePairs
  /-- Models `assert event_i` failing inside the accumulation loop. -/
  | assertionCensoredSample
  /-- Models the `type_pred` assert of `concordance_index` failing. -/
  | assertionTypePred
  /-- Models `y_pred.shape[1]` raising IndexError on a 1-D array in `concordance_index`. -/
  | shapeIndexError
deriving DecidableEq

/-- Reads `event_indicator[i]` with numpy-style fixed length (reads are always
in bounds in the source; the default is irrelevant). -/
def sampleEvent (event_indicator : List Bool) (i : ℕ) : Bool :=
  event_indicator.getD i false

/-- Reads `event_time[i]`. -/
def sampleTime (event_time : List ℚ) (i : ℕ) : ℚ := event_time.getD i 0

/-- Reads `estimate[i]` (also used for the weights array). -/
def sampleEst (estimate : List ℚ) (i : ℕ) : ℚ := estimate.getD i 0

/-- Embeds `_check_inputs` (src/eval/cindex.py:67-84).  Length consistency is checked
first, then `len(event_time) < 2`, then `not event_indicator.any()`.  The
boolean-dtype check is enforced by the type `List Bool` here. -/
def checkInputs (event_indicator : List Bool) (event_time : List ℚ)
    (estimate : List ℚ) : Except CIError Unit :=
  if event_indicator.length ≠ event_time.length ∨
      event_time.length ≠ estimate.length then .error .inconsistentLength
  else if event_time.length < 2 then .error .minTwoSamples
  else if !event_indicator.any (fun b => b) then .error .allCensored
  else .ok ()

/-- Embeds `numpy.argsort(event_time)`: a permutation of `0..n-1` sorting the times
in ascending order (modelled with mergeSort; any sorting permutation is a
faithful model). -/
def argsort (event_time : List ℚ) : List ℕ :=
  (List.range event_time.length).mergeSort
    (fun a b => decide (sampleTime event_time a ≤ sampleTime event_time b))

/-- Reads `order[k]`. -/
def ordAt (event_time : List ℚ) (k : ℕ) : ℕ := (argsort event_time).getD k 0

/-- The inner `while end < n_samples and event_time[order[end]] == time_i`
loop of `_get_comparable`: how many consecutive sort positions from `start`
carry time `t` (`tm` is time composed with the sort order). -/
def tiedRun (tm : ℕ → ℚ) (n : ℕ) (t : ℚ) (start : ℕ) : ℕ :=
  ((List.range' start (n - start)).takeWhile (fun j => decide (tm j = t))).length

/-- The mask built for an event inside the tied-time group `[i, e)`:
`mask[end:] = True; mask[i:end] = censored_at_same_time` (`ev` is the event
indicator composed with the sort order, so the mask is indexed by sort
position, exactly as in the source where it is applied to `order`). -/
def maskFor (ev : ℕ → Bool) (i e : ℕ) : ℕ → Bool :=
  fun k => decide (e ≤ k) || (decide (i ≤ k) && decide (k < e) && !ev k)

/-- The value of `end` after the inner while loop, for a group starting at
sort position `i`. -/
def groupEnd (tm : ℕ → ℚ) (n i : ℕ) : ℕ :=
  (i + 1) + tiedRun tm n (tm i) (i + 1)

/-- The outer `while i < n_samples - 1` loop of `_get_comparable`, written in
sort-position space with structural fuel (any `fuel ≥ n - i` gives the loop's
behaviour; callers pass `fuel = n`).  Per group `[i, e)` it adds one entry per
uncensored member and `censored_at_same_time.sum()` to `tied_time` once per
uncensored member. -/
def getComparableAux (ev : ℕ → Bool) (tm : ℕ → ℚ) (n : ℕ) :
    ℕ → ℕ → List (ℕ × (ℕ → Bool)) × ℕ
  | 0, _ => ([], 0)
  | fuel + 1, i =>
    if i < n - 1 then
      let e := groupEnd tm n i
      let js := List.range' i (e - i)
      let censoredCnt := (js.filter (fun j => !ev j)).length
      let eventJs := js.filter (fun j => ev j)
      let entries := eventJs.map (fun j => (j, maskFor ev i e))
      let rest := getComparableAux ev tm n fuel e
      (entries ++ rest.1, eventJs.length * censoredCnt + rest.2)
    else ([], 0)

/-- Embeds `_get_comparable(event_indicator, event_time, order)`
(src/eval/cindex.py:86-111).  Returns the comparable mapping (an association
list keyed by sort position, in dict insertion order) and `tied_time`. -/
def getComparable (event_indicator : ℕ → Bool) (event_time : ℕ → ℚ)
    (order : ℕ → ℕ) (n_samples : ℕ) : List (ℕ × (ℕ → Bool)) × ℕ :=
  getComparableAux (fun k => event_indicator (order k))
    (fun k => event_time (order k)) n_samples n_samples 0

/-- Computes `mask.sum()` / `est.size`. -/
def maskCount (n : ℕ) (mask : ℕ → Bool) : ℕ :=
  (List.range n).countP (fun k => mask k)

/-- Computes `numpy.absolute(est - est_i) <= tied_tol` for one comparable sample `k`
against the event at sort position `ind` (`est` composed with sort order). -/
def tieAt (est : ℕ → ℚ) (tol : ℚ) (ind k : ℕ) : Bool :=
  decide (|est k - est ind| ≤ tol)

/-- Computes `n_ties = ties.sum()`. -/
def nTiesOf (est : ℕ → ℚ) (tol : ℚ) (n ind : ℕ) (mask : ℕ → Bool) : ℕ :=
  (List.range n).countP (fun k => mask k && tieAt est tol ind k)

/-- Computes `n_con = con[~ties].sum()` where `con = est < est_i`. -/
def nConOf (est : ℕ → ℚ) (tol : ℚ) (n ind : ℕ) (mask : ℕ → Bool) : ℕ :=
  (List.range n).countP
    (fun k => mask k && !tieAt est tol ind k && decide (est k < est ind))

/-- The running totals of the accumulation loop of
`_estimate_concordance_index` (src/eval/cindex.py:122-148). -/
structure CAcc where
  concordant : ℤ
  discordant : ℤ
  tied_risk : ℤ
  numerator : ℚ
  denominator : ℚ
deriving DecidableEq

/-- Totals before the loop starts. -/
def CAcc.zero : CAcc := ⟨0, 0, 0, 0, 0⟩

/-- One iteration of the loop body for entry `p = (ind, mask)`:
`numerator += w_i * n_con + 0.5 * w_i * n_ties`,
`denominator += w_i * mask.sum()`, `tied_risk += n_ties`,
`concordant += n_con`, `discordant += est.size - n_con - n_ties`. -/
def addEntry (est : ℕ → ℚ) (w : ℕ → ℚ) (tol : ℚ) (n : ℕ) (p : ℕ × (ℕ → Bool))
    (acc : CAcc) : CAcc :=
  ⟨acc.concordant + nConOf est tol n p.1 p.2,
   acc.discordant + ((maskCount n p.2 : ℤ) - nConOf est tol n p.1 p.2 -
     nTiesOf est tol n p.1 p.2),
   acc.tied_risk + nTiesOf est tol n p.1 p.2,
   acc.numerator + w p.1 * nConOf est tol n p.1 p.2 +
     1 / 2 * (w p.1 * nTiesOf est tol n p.1 p.2),
   acc.denominator + w p.1 * maskCount n p.2⟩

/-- The accumulated totals over the whole comparable mapping (the value the
loop produces when no assertion fires; addition of contributions is
commutative so the fold direction is irrelevant). -/
def ciAccum (est : ℕ → ℚ) (w : ℕ → ℚ) (tol : ℚ) (n : ℕ) :
    List (ℕ × (ℕ → Bool)) → CAcc
  | [] => CAcc.zero
  | p :: rest => addEntry est w tol n p (ciAccum est w tol n rest)

/-- The accumulation loop with its `assert event_i, 'got censored sample at
index %d, but expected uncensored'` check (`ev` composed with sort order). -/
def ciLoop (ev : ℕ → Bool) (est : ℕ → ℚ) (w : ℕ → ℚ) (tol : ℚ) (n : ℕ) :
    List (ℕ × (ℕ → Bool)) → Except CIError CAcc
  | [] => .ok CAcc.zero
  | p :: rest =>
    if ev p.1 = true then
      match ciLoop ev est w tol n rest with
      | .error e => .error e
      | .ok acc => .ok (addEntry est w tol n p acc)
    else .error .assertionCensoredSample

/-- The tuple `concordance_index_censored` / `_estimate_concordance_index`
return.  `cindex = none` models the NaN of `0.0 / 0.0`. -/
structure CIResult where
  cindex : Option ℚ
  concordant : ℤ
  discordant : ℤ
  tied_risk : ℤ
  tied_time : ℕ
deriving DecidableEq

/-- Reads `event_indicator[order[k]]`. -/
def evOrd (event_indicator : List Bool) (event_time : List ℚ) (k : ℕ) : Bool :=
  sampleEvent event_indicator (ordAt event_time k)

/-- Reads `event_time[order[k]]`. -/
def tmOrd (event_time : List ℚ) (k : ℕ) : ℚ :=
  sampleTime event_time (ordAt event_time k)

/-- Reads `estimate[order[k]]`. -/
def estOrd (estimate : List ℚ) (event_time : List ℚ) (k : ℕ) : ℚ :=
  sampleEst estimate (ordAt event_time k)

/-- Reads `weights[order[k]]`. -/
def wtOrd (weights : List ℚ) (event_time : List ℚ) (k : ℕ) : ℚ :=
  sampleEst weights (ordAt event_time k)

/-- The comparable mapping and tied-time count exactly as
`_estimate_concordance_index` builds them:
`comparable, tied_time = _get_comparable(event_indicator, event_time, order)`
with `order = numpy.argsort(event_time)`. -/
def theComparable (event_indicator : List Bool) (event_time : List ℚ) :
    List (ℕ × (ℕ → Bool)) × ℕ :=
  getComparable (sampleEvent event_indicator) (sampleTime event_time)
    (ordAt event_time) event_time.length

/-- The totals accumulated by the loop of `_estimate_concordance_index` over
the whole comparable mapping. -/
def theAccum (event_indicator : List Bool) (event_time : List ℚ)
    (estimate weights : List ℚ) (tied_tol : ℚ) : CAcc :=
  ciAccum (estOrd estimate event_time) (wtOrd weights event_time) tied_tol
    event_time.length (theComparable event_indicator event_time).1

/-- Embeds `_estimate_concordance_index` (src/eval/cindex.py:113-150): sort, build
the comparable mapping, raise `NoComparablePairException` on an empty mapping,
run the loop, and divide. -/
def estimateConcordanceIndex (event_indicator : List Bool) (event_time : List ℚ)
    (estimate : List ℚ) (weights : List ℚ) (tied_tol : ℚ) :
    Except CIError CIResult :=
  let n := event_time.length
  let cpair := theComparable event_indicator event_time
  match cpair.1 with
  | [] => .error .noComparablePairs
  | _ :: _ =>
    match ciLoop (evOrd event_indicator event_time)
        (estOrd estimate event_time) (wtOrd weights event_time)
        tied_tol n cpair.1 with
    | .error e => .error e
    | .ok acc =>
      .ok ⟨if acc.denominator = 0 then none
           else some (acc.numerator / acc.denominator),
           acc.concordant, acc.discordant, acc.tied_risk, cpair.2⟩

/-- Embeds `concordance_index_censored` (src/eval/cindex.py:152-207): validate, then
run `_estimate_concordance_index` with `w = numpy.ones_like(estimate)`. -/
def concordanceIndexCensored (event_indicator : List Bool) (event_time : List ℚ)
    (estimate : List ℚ) (tied_tol : ℚ) : Except CIError CIResult :=
  match checkInputs event_indicator event_time estimate with
  | .error e => .error e
  | .ok _ =>
    estimateConcordanceIndex event_indicator event_time estimate
      (List.replicate estimate.length 1) tied_tol

/-- Embeds `numpy.cumsum` on one row (partial sums). -/
def cumsum : List ℚ → List ℚ
  | [] => []
  | a :: t => a :: (cumsum t).map (fun x => a + x)

/-- Embeds `numpy.cumprod` on one row (partial products). -/
def cumprod : List ℚ → List ℚ
  | [] => []
  | a :: t => a :: (cumprod t).map (fun x => a * x)

/-- The shape of `y_pred` as `concordance_index` receives it: a 1-D array
`(n,)` or a 2-D array `(n, T)`. -/
inductive PredArray
  | vec (xs : List ℚ)
  | mat (rows : List (List ℚ))

/-- Embeds `concordance_index` (src/eval/cindex.py:7-43).  `y_true` carries the
observed time in the first column and the event indicator in the second
(coerced with `astype(bool)`, i.e. nonzero ↦ true).  Accessing
`y_pred.shape[1]` on a 1-D array raises IndexError.  For an `(n, 1)` array the
coxph path negates the squeezed prediction; otherwise the discrete path
collapses the rows through `cumsum`/`cumprod` and negates the row sums. -/
def concordanceIndex (y_true : List (ℚ × ℚ)) (y_pred : PredArray)
    (type_pred : Option String) : Except CIError (Option ℚ) :=
  match y_pred with
  | .vec _ => .error .shapeIndexError
  | .mat rows =>
    let t := y_true.map Prod.fst
    let e := y_true.map (fun p => decide (p.2 ≠ 0))
    if (rows.headD []).length = 1 then
      match type_pred with
      | some s =>
        if s = ("hazard_ratio") then
          (concordanceIndexCensored e t (rows.map (fun r => -(r.headD 0)))
            (1 / 100000000)).map (fun r => r.cindex)
        else .error .assertionTypePred
      | none =>
        (concordanceIndexCensored e t (rows.map (fun r => -(r.headD 0)))
          (1 / 100000000)).map (fun r => r.cindex)
    else
      let survival :=
        if type_pred = some ("incidence") then
          rows.map (fun r => (cumsum r).map (fun s => 1 - s))
        else
          rows.map (fun r => cumprod (r.map (fun x => 1 - x)))
      let risk := survival.map (fun r => r.sum)
      (concordanceIndexCensored e t (risk.map (fun x => -x))
        (1 / 100000000)).map (fun r => r.cindex)

/-- Risk collapse as the spec words it for `type_pred = 'incidence'`: the sum
over time bins of (1 - cumulative sum of the prediction). -/
def incidenceRiskSpec (r : List ℚ) : ℚ :=
  ∑ j ∈ Finset.range r.length, (1 - ∑ k ∈ Finset.range (j + 1), r.getD k 0)

/-- Risk collapse as the spec words it otherwise: the sum over time bins of
the cumulative product of (1 - prediction). -/
def survivalRiskSpec (r : List ℚ) : ℚ :=
  ∑ j ∈ Finset.range r.length, ∏ k ∈ Finset.range (j + 1), (1 - r.getD k 0)

/-- The number of ordered pairs `(a, b)` of samples in `[lo, n)` where `a` is
an event, `b` is censored, and both share the same observed time. -/
def tiedPairs (ev : ℕ → Bool) (tm : ℕ → ℚ) (lo n : ℕ) : ℕ :=
  ((Finset.Ico lo n ×ˢ Finset.Ico lo n).filter
    (fun p => ev p.1 = true ∧ ev p.2 = false ∧ tm p.1 = tm p.2)).card

/-! ### The inner while loop of `_get_comparable` -/

lemma tiedRun_of_le (tm : ℕ → ℚ) (n : ℕ) (t : ℚ) (start : ℕ) (h : n ≤ start) :
    tiedRun tm n t start = 0 := by
  simp [tiedRun, Nat.sub_eq_zero_of_le h]

lemma tiedRun_succ (tm : ℕ → ℚ) (n : ℕ) (t : ℚ) (start : ℕ) (h : start < n) :
    tiedRun tm n t start =
      if tm start = t then tiedRun tm n t (start + 1) + 1 else 0 := by
  have h1 : n - start = (n - (start + 1)) + 1 := by omega
  rw [tiedRun, h1, List.range'_succ, List.takeWhile_cons]
  by_cases ht : tm start = t
  · simp [ht, tiedRun]
  · simp [ht]

lemma tiedRun_spec (tm : ℕ → ℚ) (n : ℕ) (t : ℚ) :
    ∀ fuel start, n - start ≤ fuel → start ≤ n →
      start + tiedRun tm n t start ≤ n ∧
      (∀ k, start ≤ k → k < start + tiedRun tm n t start → tm k = t) ∧
      (start + tiedRun tm n t start < n →
        tm (start + tiedRun tm n t start) ≠ t) := by
  intro fuel
  induction fuel with
  | zero =>
    intro start h1 h2
    have hs : n ≤ start := by omega
    rw [tiedRun_of_le tm n t start hs]
    exact ⟨by omega, fun k hk1 hk2 => absurd hk2 (by omega),
      fun h => absurd h (by omega)⟩
  | succ fuel ih =>
    intro start h1 h2
    rcases Nat.lt_or_ge start n with hlt | hge
    · rw [tiedRun_succ tm n t start hlt]
      by_cases ht : tm start = t
      · rw [if_pos ht]
        obtain ⟨ih1, ih2, ih3⟩ := ih (start + 1) (by omega) (by omega)
        have heq : start + (tiedRun tm n t (start + 1) + 1) =
            (start + 1) + tiedRun tm n t (start + 1) := by omega
        rw [heq]
        refine ⟨ih1, ?_, ih3⟩
        intro k hk1 hk2
        rcases Nat.eq_or_lt_of_le hk1 with h | h
        · rw [← h]; exact ht
        · exact ih2 k (by omega) hk2
      · rw [if_neg ht]
        exact ⟨by omega, fun k hk1 hk2 => absurd hk2 (by omega),
          fun _ => by simpa using ht⟩
    · rw [tiedRun_of_le tm n t start hge]
      exact ⟨by omega, fun k hk1 hk2 => absurd hk2 (by omega),
        fun h => absurd h (by omega)⟩

lemma groupEnd_gt (tm : ℕ → ℚ) (n i : ℕ) : i < groupEnd tm n i := by
  unfold groupEnd; omega

lemma groupEnd_le (tm : ℕ → ℚ) {n i : ℕ} (h : i < n) : groupEnd tm n i ≤ n := by
  have h1 := (tiedRun_spec tm n (tm i) (n - (i + 1)) (i + 1) le_rfl (by omega)).1
  unfold groupEnd; omega

lemma groupEnd_time_eq (tm : ℕ → ℚ) {n i : ℕ} (h : i < n) :
    ∀ k, i ≤ k → k < groupEnd tm n i → tm k = tm i := by
  obtain ⟨-, h2, -⟩ :=
    tiedRun_spec tm n (tm i) (n - (i + 1)) (i + 1) le_rfl (by omega)
  intro k hk1 hk2
  have hk2' : k < (i + 1) + tiedRun tm n (tm i) (i + 1) := hk2
  rcases Nat.eq_or_lt_of_le hk1 with he | hlt
  · rw [← he]
  · exact h2 k (by omega) hk2'

lemma groupEnd_time_gt (tm : ℕ → ℚ) {n i : ℕ} (h : i < n)
    (hsort : ∀ a b, a ≤ b → b < n → tm a ≤ tm b) :
    ∀ k, groupEnd tm n i ≤ k → k < n → tm i < tm k := by
  obtain ⟨h1, -, h3⟩ :=
    tiedRun_spec tm n (tm i) (n - (i + 1)) (i + 1) le_rfl (by omega)
  intro k hk1 hk2
  have he : groupEnd tm n i < n := by
    calc groupEnd tm n i ≤ k := hk1
    _ < n := hk2
  have hne : tm (groupEnd tm n i) ≠ tm i := h3 he
  have hle : tm i ≤ tm (groupEnd tm n i) :=
    hsort i _ (Nat.le_of_lt (groupEnd_gt tm n i)) he
  have hlt : tm i < tm (groupEnd tm n i) := lt_of_le_of_ne hle (Ne.symm hne)
  exact lt_of_lt_of_le hlt (hsort _ k hk1 hk2)

/-! ### Properties of `numpy.argsort` -/

lemma argsort_perm (tm : List ℚ) : (argsort tm).Perm (List.range tm.length) :=
  List.mergeSort_perm _ _

lemma argsort_length (tm : List ℚ) : (argsort tm).length = tm.length := by
  simpa using (argsort_perm tm).length_eq

lemma argsort_nodup (tm : List ℚ) : (argsort tm).Nodup :=
  (argsort_perm tm).nodup_iff.mpr (List.nodup_range _)

lemma argsort_mem_lt (tm : List ℚ) {a : ℕ} (h : a ∈ argsort tm) :
    a < tm.length := by
  have h2 := (argsort_perm tm).mem_iff.mp h
  simpa using h2

lemma ordAt_lt (tm : List ℚ) {k : ℕ} (h : k < tm.length) :
    ordAt tm k < tm.length := by
  apply argsort_mem_lt
  have h2 : k < (argsort tm).length := by rw [argsort_length]; exact h
  rw [ordAt, List.getD_eq_getElem _ _ h2]
  exact List.getElem_mem h2

lemma ordAt_inj (tm : List ℚ) {k l : ℕ} (hk : k < tm.length)
    (hl : l < tm.length) (h : ordAt tm k = ordAt tm l) : k = l := by
  have hk' : k < (argsort tm).length := by rw [argsort_length]; exact hk
  have hl' : l < (argsort tm).length := by rw [argsort_length]; exact hl
  rw [ordAt, ordAt, List.getD_eq_getElem _ _ hk', List.getD_eq_getElem _ _ hl']
    at h
  exact ((argsort_nodup tm).getElem_inj_iff).mp h

lemma ordAt_surj (tm : List ℚ) {a : ℕ} (ha : a < tm.length) :
    ∃ k, k < tm.length ∧ ordAt tm k = a := by
  have hmem : a ∈ argsort tm :=
    (argsort_perm tm).mem_iff.mpr (by simpa using ha)
  obtain ⟨k, hk, hka⟩ := List.mem_iff_getElem.mp hmem
  refine ⟨k, by rw [← argsort_length tm]; exact hk, ?_⟩
  rw [ordAt, List.getD_eq_getElem _ _ hk]
  exact hka

lemma argsort_pairwise (tm : List ℚ) :
    List.Pairwise (fun a b => sampleTime tm a ≤ sampleTime tm b) (argsort tm) := by
  have h := @List.sorted_mergeSort ℕ
    (fun a b => decide (sampleTime tm a ≤ sampleTime tm b))
    (fun a b c hab hbc => by
      simp only [decide_eq_true_eq] at *
      exact le_trans hab hbc)
    (fun a b => by
      simp only [Bool.or_eq_true, decide_eq_true_eq]
      exact le_total _ _)
    (List.range tm.length)
  unfold argsort
  exact h.imp (fun hab => by simpa using hab)

lemma tmOrd_mono (tm : List ℚ) {a b : ℕ} (hab : a ≤ b) (hb : b < tm.length) :
    tmOrd tm a ≤ tmOrd tm b := by
  rcases Nat.eq_or_lt_of_le hab with he | hlt
  · rw [he]
  · have ha' : a < (argsort tm).length := by rw [argsort_length]; omega
    have hb' : b < (argsort tm).length := by rw [argsort_length]; exact hb
    have hp := List.pairwise_iff_get.mp (argsort_pairwise tm)
      ⟨a, ha'⟩ ⟨b, hb'⟩ hlt
    rw [tmOrd, tmOrd, ordAt, ordAt, List.getD_eq_getElem _ _ ha',
      List.getD_eq_getElem _ _ hb']
    simpa [List.get_eq_getElem] using hp

/-! ### Counting helpers -/

lemma card_filter_Ico (p : ℕ → Bool) (a b : ℕ) :
    ((Finset.Ico a b).filter (fun x => p x = true)).card =
      ((List.range' a (b - a)).filter p).length := by
  have hfun : (fun x => decide (p x = true)) = p := by
    funext x; cases hx : p x <;> simp [hx]
  rw [Nat.Ico_eq_range']
  simp only [Finset.filter, Finset.card, Multiset.filter_coe, Multiset.coe_card]
  rw [hfun]

lemma tiedPairs_degenerate (ev : ℕ → Bool) (tm : ℕ → ℚ) {i n : ℕ}
    (h : n - 1 ≤ i) : tiedPairs ev tm i n = 0 := by
  rw [tiedPairs, Finset.card_eq_zero, Finset.filter_eq_empty_iff]
  rintro ⟨a, b⟩ hmem ⟨h1, h2, h3⟩
  rw [Finset.mem_product, Finset.mem_Ico, Finset.mem_Ico] at hmem
  have hab : a = b := by omega
  rw [hab] at h1
  rw [h1] at h2
  simp at h2

lemma tiedPairs_split (ev : ℕ → Bool) (tm : ℕ → ℚ) {n i e : ℕ}
    (hie : i ≤ e) (hen : e ≤ n)
    (heq : ∀ k, i ≤ k → k < e → tm k = tm i)
    (hgt : ∀ k, e ≤ k → k < n → tm i < tm k) :
    tiedPairs ev tm i n =
      ((Finset.Ico i e).filter (fun a => ev a = true)).card *
        ((Finset.Ico i e).filter (fun a => ev a = false)).card +
      tiedPairs ev tm e n := by
  classical
  have hu : Finset.Ico i e ∪ Finset.Ico e n = Finset.Ico i n :=
    Finset.Ico_union_Ico_eq_Ico hie hen
  have hne : ∀ a b : ℕ, i ≤ a → a < e → e ≤ b → b < n →
      tm a ≠ tm b ∧ tm b ≠ tm a := by
    intro a b ha1 ha2 hb1 hb2
    have h1 : tm a = tm i := heq a ha1 ha2
    have h2 : tm i < tm b := hgt b hb1 hb2
    constructor
    · rw [h1]; exact ne_of_lt h2
    · rw [h1]; exact (ne_of_lt h2).symm
  rw [tiedPairs, tiedPairs, ← hu, Finset.union_product, Finset.product_union,
    Finset.product_union, Finset.filter_union, Finset.filter_union,
    Finset.filter_union]
  have hAB : ((Finset.Ico i e) ×ˢ (Finset.Ico e n)).filter
      (fun p => ev p.1 = true ∧ ev p.2 = false ∧ tm p.1 = tm p.2) = ∅ := by
    rw [Finset.filter_eq_empty_iff]
    rintro ⟨a, b⟩ hmem ⟨h1, h2, h3⟩
    rw [Finset.mem_product, Finset.mem_Ico, Finset.mem_Ico] at hmem
    exact (hne a b hmem.1.1 hmem.1.2 hmem.2.1 hmem.2.2).1 h3
  have hBA : ((Finset.Ico e n) ×ˢ (Finset.Ico i e)).filter
      (fun p => ev p.1 = true ∧ ev p.2 = false ∧ tm p.1 = tm p.2) = ∅ := by
    rw [Finset.filter_eq_empty_iff]
    rintro ⟨a, b⟩ hmem ⟨h1, h2, h3⟩
    rw [Finset.mem_product, Finset.mem_Ico, Finset.mem_Ico] at hmem
    exact (hne b a hmem.2.1 hmem.2.2 hmem.1.1 hmem.1.2).2 h3
  rw [hAB, hBA, Finset.union_empty, Finset.empty_union]
  have hAA : ((Finset.Ico i e) ×ˢ (Finset.Ico i e)).filter
      (fun p => ev p.1 = true ∧ ev p.2 = false ∧ tm p.1 = tm p.2) =
      ((Finset.Ico i e).filter (fun a => ev a = true)) ×ˢ
        ((Finset.Ico i e).filter (fun a => ev a = false)) := by
    rw [← Finset.filter_product (fun a => ev a = true) (fun a => ev a = false)]
    apply Finset.filter_congr
    rintro ⟨a, b⟩ hmem
    rw [Finset.mem_product, Finset.mem_Ico, Finset.mem_Ico] at hmem
    have h1 : tm a = tm i := heq a hmem.1.1 hmem.1.2
    have h2 : tm b = tm i := heq b hmem.2.1 hmem.2.2
    constructor
    · rintro ⟨x1, x2, -⟩; exact ⟨x1, x2⟩
    · rintro ⟨x1, x2⟩; exact ⟨x1, x2, by rw [h1, h2]⟩
  have hdisj : Disjoint
      (((Finset.Ico i e) ×ˢ (Finset.Ico i e)).filter
        (fun p => ev p.1 = true ∧ ev p.2 = false ∧ tm p.1 = tm p.2))
      (((Finset.Ico e n) ×ˢ (Finset.Ico e n)).filter
        (fun p => ev p.1 = true ∧ ev p.2 = false ∧ tm p.1 = tm p.2)) := by
    rw [Finset.disjoint_left]
    rintro ⟨a, b⟩ h1 h2
    rw [Finset.mem_filter, Finset.mem_product, Finset.mem_Ico, Finset.mem_Ico]
      at h1 h2
    omega
  rw [Finset.card_union_of_disjoint hdisj, hAA, Finset.card_product]

/-! ### Unfolding lemmas for the outer loop -/

lemma getComparableAux_zero (ev : ℕ → Bool) (tm : ℕ → ℚ) (n i : ℕ) :
    getComparableAux ev tm n 0 i = ([], 0) := rfl

lemma getComparableAux_succ_pos (ev : ℕ → Bool) (tm : ℕ → ℚ) (n fuel i : ℕ)
    (h : i < n - 1) :
    getComparableAux ev tm n (fuel + 1) i =
      ((((List.range' i (groupEnd tm n i - i)).filter (fun j => ev j)).map
          (fun j => (j, maskFor ev i (groupEnd tm n i)))) ++
        (getComparableAux ev tm n fuel (groupEnd tm n i)).1,
       ((List.range' i (groupEnd tm n i - i)).filter (fun j => ev j)).length *
          ((List.range' i (groupEnd tm n i - i)).filter
            (fun j => !ev j)).length +
        (getComparableAux ev tm n fuel (groupEnd tm n i)).2) := by
  rw [getComparableAux, if_pos h]

lemma getComparableAux_succ_neg (ev : ℕ → Bool) (tm : ℕ → ℚ) (n fuel i : ℕ)
    (h : ¬ i < n - 1) :
    getComparableAux ev tm n (fuel + 1) i = ([], 0) := by
  rw [getComparableAux, if_neg h]

/-! ### The full characterisation of the outer loop of `_get_comparable` -/

lemma getComparableAux_spec (ev : ℕ → Bool) (tm : ℕ → ℚ) (n : ℕ)
    (hsort : ∀ a b, a ≤ b → b < n → tm a ≤ tm b) :
    ∀ fuel i, n ≤ fuel + i →
      (∀ k j, k < i → i ≤ j → j < n → tm k < tm j) →
      (∀ p ∈ (getComparableAux ev tm n fuel i).1,
        i ≤ p.1 ∧ p.1 < n ∧ ev p.1 = true ∧
        ∀ k, k < n →
          (p.2 k = true ↔ (tm p.1 < tm k ∨ (tm k = tm p.1 ∧ ev k = false)))) ∧
      (∀ j, i ≤ j → j < n → ev j = true →
        (∃ k, k < n ∧ k ≠ j ∧ tm j ≤ tm k) →
        ∃ m, (j, m) ∈ (getComparableAux ev tm n fuel i).1) ∧
      (getComparableAux ev tm n fuel i).2 = tiedPairs ev tm i n := by
  intro fuel
  induction fuel with
  | zero =>
    intro i hfi hinv
    rw [getComparableAux_zero]
    refine ⟨by simp, ?_, (tiedPairs_degenerate ev tm (by omega)).symm⟩
    intro j hij hjn _ _
    omega
  | succ fuel ih =>
    intro i hfi hinv
    by_cases hcond : i < n - 1
    · have hin : i < n := by omega
      have hie : i < groupEnd tm n i := groupEnd_gt tm n i
      have hen : groupEnd tm n i ≤ n := groupEnd_le tm hin
      have heq := groupEnd_time_eq tm hin
      have hgt := groupEnd_time_gt tm hin hsort
      have hinv' : ∀ k j, k < groupEnd tm n i → groupEnd tm n i ≤ j → j < n →
          tm k < tm j := by
        intro k j hk hj hjn
        rcases Nat.lt_or_ge k i with hki | hki
        · exact hinv k j hki (le_trans (Nat.le_of_lt hie) hj) hjn
        · rw [heq k hki hk]; exact hgt j hj hjn
      obtain ⟨ihA, ihB, ihC⟩ := ih (groupEnd tm n i) (by omega) hinv'
      rw [getComparableAux_succ_pos ev tm n fuel i hcond]
      refine ⟨?_, ?_, ?_⟩
      · rintro ⟨j, m⟩ hp
        rw [List.mem_append] at hp
        rcases hp with hp | hp
        · rw [List.mem_map] at hp
          obtain ⟨j', hj', hpe⟩ := hp
          cases hpe
          rw [List.mem_filter, List.mem_range'_1] at hj'
          obtain ⟨⟨hj1, hj2⟩, hevj⟩ := hj'
          have hj2' : j < groupEnd tm n i := by omega
          have hj2n : j < n := by omega
          refine ⟨hj1, hj2n, hevj, ?_⟩
          intro k hk
          simp only [maskFor, Bool.or_eq_true, Bool.and_eq_true,
            decide_eq_true_eq, Bool.not_eq_true']
          have htj : tm j = tm i := heq j hj1 hj2'
          constructor
          · rintro (hke | ⟨⟨hik, hke⟩, hevk⟩)
            · exact Or.inl (by rw [htj]; exact hgt k hke hk)
            · exact Or.inr ⟨by rw [heq k hik hke, htj], hevk⟩
          · rintro (hlt | ⟨hteq, hevk⟩)
            · left
              by_contra hke
              push_neg at hke
              rcases Nat.lt_or_ge k i with hki | hki
              · have hc := hinv k j hki hj1 hj2n
                exact absurd hlt (not_lt.mpr (le_of_lt hc))
              · rw [heq k hki hke, ← htj] at hlt
                exact absurd hlt (lt_irrefl _)
            · rcases Nat.lt_or_ge k (groupEnd tm n i) with hke | hke
              · rcases Nat.lt_or_ge k i with hki | hki
                · have hc := hinv k j hki hj1 hj2n
                  rw [hteq] at hc
                  exact absurd hc (lt_irrefl _)
                · exact Or.inr ⟨⟨hki, hke⟩, hevk⟩
              · exact Or.inl hke
        · obtain ⟨h1, h2, h3, h4⟩ := ihA ⟨j, m⟩ hp
          exact ⟨le_trans (Nat.le_of_lt hie) h1, h2, h3, h4⟩
      · intro j hij hjn hevj hex
        by_cases hje : j < groupEnd tm n i
        · refine ⟨maskFor ev i (groupEnd tm n i), ?_⟩
          rw [List.mem_append]
          left
          rw [List.mem_map]
          refine ⟨j, ?_, rfl⟩
          rw [List.mem_filter, List.mem_range'_1]
          exact ⟨⟨hij, by omega⟩, hevj⟩
        · obtain ⟨m, hm⟩ := ihB j (by omega) hjn hevj hex
          refine ⟨m, ?_⟩
          rw [List.mem_append]
          exact Or.inr hm
      · rw [ihC, tiedPairs_split ev tm (Nat.le_of_lt hie) hen heq hgt]
        have hcc : (Finset.Ico i (groupEnd tm n i)).filter
            (fun a => ev a = false) =
            (Finset.Ico i (groupEnd tm n i)).filter
              (fun x => (!ev x) = true) := by
          apply Finset.filter_congr
          intro x _
          simp
        rw [hcc, card_filter_Ico, card_filter_Ico]
    · rw [getComparableAux_succ_neg ev tm n fuel i hcond]
      refine ⟨by simp, ?_, (tiedPairs_degenerate ev tm (by omega)).symm⟩
      intro j hij hjn hevj hex
      exfalso
      obtain ⟨k, hkn, hkj, hkge⟩ := hex
      have hk_lt : k < i := by omega
      have hc := hinv k j hk_lt hij hjn
      exact absurd hkge (not_le.mpr hc)

/-! ### Keys of the comparable mapping -/

lemma getComparableAux_keys (ev : ℕ → Bool) (tm : ℕ → ℚ) (n : ℕ) :
    ∀ fuel i, ∀ p ∈ (getComparableAux ev tm n fuel i).1,
      ev p.1 = true ∧ i ≤ p.1 ∧ p.1 < n := by
  intro fuel
  induction fuel with
  | zero =>
    intro i p hp
    rw [getComparableAux_zero] at hp
    simp at hp
  | succ fuel ih =>
    intro i p hp
    by_cases hcond : i < n - 1
    · rw [getComparableAux_succ_pos ev tm n fuel i hcond] at hp
      rw [List.mem_append] at hp
      have hen : groupEnd tm n i ≤ n := groupEnd_le tm (by omega)
      rcases hp with hp | hp
      · rw [List.mem_map] at hp
        obtain ⟨j, hj, hpe⟩ := hp
        rw [List.mem_filter, List.mem_range'_1] at hj
        cases hpe
        exact ⟨hj.2, hj.1.1, by omega⟩
      · obtain ⟨h1, h2, h3⟩ := ih (groupEnd tm n i) p hp
        have hie := groupEnd_gt tm n i
        exact ⟨h1, by omega, h3⟩
    · rw [getComparableAux_succ_neg ev tm n fuel i hcond] at hp
      simp at hp

lemma getComparable_keys (event_indicator : ℕ → Bool) (event_time : ℕ → ℚ)
    (order : ℕ → ℕ) (n : ℕ) :
    ∀ p ∈ (getComparable event_indicator event_time order n).1,
      event_indicator (order p.1) = true ∧ p.1 < n := by
  intro p hp
  unfold getComparable at hp
  obtain ⟨h1, -, h3⟩ := getComparableAux_keys _ _ n n 0 p hp
  exact ⟨h1, h3⟩

/-- The instantiation of the loop characterisation for the arguments
`_estimate_concordance_index` actually passes (order from `numpy.argsort`). -/
lemma getComparable_spec (ev : List Bool) (tm : List ℚ) :
    (∀ p ∈ (getComparable (sampleEvent ev) (sampleTime tm) (ordAt tm)
        tm.length).1,
      p.1 < tm.length ∧ evOrd ev tm p.1 = true ∧
      ∀ k, k < tm.length →
        (p.2 k = true ↔ (tmOrd tm p.1 < tmOrd tm k ∨
          (tmOrd tm k = tmOrd tm p.1 ∧ evOrd ev tm k = false)))) ∧
    (∀ j, j < tm.length → evOrd ev tm j = true →
      (∃ k, k < tm.length ∧ k ≠ j ∧ tmOrd tm j ≤ tmOrd tm k) →
      ∃ m, (j, m) ∈ (getComparable (sampleEvent ev) (sampleTime tm)
        (ordAt tm) tm.length).1) ∧
    (getComparable (sampleEvent ev) (sampleTime tm) (ordAt tm) tm.length).2 =
      tiedPairs (evOrd ev tm) (tmOrd tm) 0 tm.length := by
  have hs := getComparableAux_spec (evOrd ev tm) (tmOrd tm) tm.length
    (fun a b hab hb => tmOrd_mono tm hab hb) tm.length 0 (by omega)
    (fun k j hk _ _ => absurd hk (Nat.not_lt_zero k))
  obtain ⟨hA, hB, hC⟩ := hs
  exact ⟨fun p hp => ⟨(hA p hp).2.1, (hA p hp).2.2.1, (hA p hp).2.2.2⟩,
    fun j hj1 hj2 hj3 => hB j (Nat.zero_le j) hj1 hj2 hj3, hC⟩

/-! ### Counting helpers for the accumulation loop -/

lemma countP_ext (l : List ℕ) (p q : ℕ → Bool) (h : ∀ a ∈ l, p a = q a) :
    l.countP p = l.countP q := by
  induction l with
  | nil => rfl
  | cons a t ih =>
    rw [List.countP_cons, List.countP_cons, h a (List.mem_cons_self a t),
      ih (fun b hb => h b (List.mem_cons_of_mem a hb))]

lemma countP_and_add (l : List ℕ) (p q : ℕ → Bool) :
    l.countP (fun x => p x && q x) + l.countP (fun x => p x && !q x) =
      l.countP p := by
  induction l with
  | nil => rfl
  | cons a t ih =>
    by_cases hp : p a <;> by_cases hq : q a <;>
      simp [List.countP_cons, hp, hq] <;> omega

lemma nCon_add_nTies_le (est : ℕ → ℚ) (tol : ℚ) (n ind : ℕ)
    (mask : ℕ → Bool) :
    nConOf est tol n ind mask + nTiesOf est tol n ind mask ≤
      maskCount n mask := by
  have h1 : nConOf est tol n ind mask ≤
      (List.range n).countP (fun k => mask k && !tieAt est tol ind k) := by
    apply List.countP_mono_left
    intro x _ hx
    simp only [Bool.and_eq_true] at hx
    simp [hx.1.1, hx.1.2]
  have h2 := countP_and_add (List.range n) (fun k => mask k)
    (fun k => tieAt est tol ind k)
  rw [maskCount, nTiesOf]
  omega

/-! ### The accumulation loop -/

lemma ciAccum_nil (est : ℕ → ℚ) (w : ℕ → ℚ) (tol : ℚ) (n : ℕ) :
    ciAccum est w tol n [] = CAcc.zero := rfl

lemma ciAccum_cons (est : ℕ → ℚ) (w : ℕ → ℚ) (tol : ℚ) (n : ℕ)
    (p : ℕ × (ℕ → Bool)) (rest : List (ℕ × (ℕ → Bool))) :
    ciAccum est w tol n (p :: rest) =
      addEntry est w tol n p (ciAccum est w tol n rest) := rfl

lemma ciLoop_ok (ev : ℕ → Bool) (est : ℕ → ℚ) (w : ℕ → ℚ) (tol : ℚ) (n : ℕ) :
    ∀ comp : List (ℕ × (ℕ → Bool)), (∀ p ∈ comp, ev p.1 = true) →
      ciLoop ev est w tol n comp = .ok (ciAccum est w tol n comp) := by
  intro comp
  induction comp with
  | nil => intro _; rfl
  | cons p rest ih =>
    intro h
    have h1 : ev p.1 = true := h p (List.mem_cons_self p rest)
    have h2 := ih (fun q hq => h q (List.mem_cons_of_mem p hq))
    rw [ciLoop, if_pos h1, h2]
    rfl

lemma ciLoop_assert (ev : ℕ → Bool) (est : ℕ → ℚ) (w : ℕ → ℚ) (tol : ℚ)
    (n : ℕ) :
    ∀ comp : List (ℕ × (ℕ → Bool)), (∃ p ∈ comp, ev p.1 = false) →
      ciLoop ev est w tol n comp = .error .assertionCensoredSample := by
  intro comp
  induction comp with
  | nil =>
    rintro ⟨p, hp, -⟩
    simp at hp
  | cons p rest ih =>
    rintro ⟨q, hq, hqf⟩
    rw [List.mem_cons] at hq
    by_cases h1 : ev p.1 = true
    · rcases hq with rfl | hq
      · rw [hqf] at h1; simp at h1
      · rw [ciLoop, if_pos h1, ih ⟨q, hq, hqf⟩]
    · rw [ciLoop, if_neg h1]

lemma ciAccum_conservation (est : ℕ → ℚ) (w : ℕ → ℚ) (tol : ℚ) (n : ℕ)
    (comp : List (ℕ × (ℕ → Bool))) (hw : ∀ p ∈ comp, w p.1 = 1) :
    ((ciAccum est w tol n comp).concordant +
      (ciAccum est w tol n comp).discordant +
      (ciAccum est w tol n comp).tied_risk : ℚ) =
      (ciAccum est w tol n comp).denominator := by
  induction comp with
  | nil => simp [ciAccum_nil, CAcc.zero]
  | cons p rest ih =>
    have hw1 : w p.1 = 1 := hw p (List.mem_cons_self p rest)
    have ih' := ih (fun q hq => hw q (List.mem_cons_of_mem p hq))
    simp only [ciAccum_cons, addEntry]
    push_cast
    rw [hw1]
    push_cast at ih'
    linarith [ih']

lemma ciAccum_den_nonneg (est : ℕ → ℚ) (w : ℕ → ℚ) (tol : ℚ) (n : ℕ)
    (comp : List (ℕ × (ℕ → Bool))) (hw : ∀ p ∈ comp, w p.1 = 1) :
    0 ≤ (ciAccum est w tol n comp).denominator := by
  induction comp with
  | nil => simp [ciAccum_nil, CAcc.zero]
  | cons p rest ih =>
    have hw1 : w p.1 = 1 := hw p (List.mem_cons_self p rest)
    have ih' := ih (fun q hq => hw q (List.mem_cons_of_mem p hq))
    simp only [ciAccum_cons, addEntry]
    rw [hw1]
    have : (0 : ℚ) ≤ (maskCount n p.2 : ℚ) := by positivity
    linarith

lemma ciAccum_num_bounds (est : ℕ → ℚ) (w : ℕ → ℚ) (tol : ℚ) (n : ℕ)
    (comp : List (ℕ × (ℕ → Bool))) (hw : ∀ p ∈ comp, w p.1 = 1) :
    0 ≤ (ciAccum est w tol n comp).numerator ∧
      (ciAccum est w tol n comp).numerator ≤
        (ciAccum est w tol n comp).denominator := by
  induction comp with
  | nil => simp [ciAccum_nil, CAcc.zero]
  | cons p rest ih =>
    have hw1 : w p.1 = 1 := hw p (List.mem_cons_self p rest)
    obtain ⟨ih1, ih2⟩ := ih (fun q hq => hw q (List.mem_cons_of_mem p hq))
    simp only [ciAccum_cons, addEntry]
    rw [hw1]
    have hb := nCon_add_nTies_le est tol n p.1 p.2
    have hb' : (nConOf est tol n p.1 p.2 : ℚ) + (nTiesOf est tol n p.1 p.2 : ℚ) ≤
        (maskCount n p.2 : ℚ) := by exact_mod_cast hb
    have hnc : (0 : ℚ) ≤ (nConOf est tol n p.1 p.2 : ℚ) := by positivity
    have hnt : (0 : ℚ) ≤ (nTiesOf est tol n p.1 p.2 : ℚ) := by positivity
    constructor
    · linarith
    · linarith

lemma ciAccum_den_ge (est : ℕ → ℚ) (w : ℕ → ℚ) (tol : ℚ) (n : ℕ)
    (comp : List (ℕ × (ℕ → Bool))) (hw : ∀ p ∈ comp, w p.1 = 1)
    {q : ℕ × (ℕ → Bool)} (hq : q ∈ comp) :
    (maskCount n q.2 : ℚ) ≤ (ciAccum est w tol n comp).denominator := by
  induction comp with
  | nil => simp at hq
  | cons p rest ih =>
    have hw1 : w p.1 = 1 := hw p (List.mem_cons_self p rest)
    have hwr := fun r hr => hw r (List.mem_cons_of_mem p hr)
    rw [List.mem_cons] at hq
    simp only [ciAccum_cons, addEntry]
    rcases hq with rfl | hq
    · rw [hw1]
      have h0 := ciAccum_den_nonneg est w tol n rest hwr
      linarith
    · have h0 := ih hwr hq
      rw [hw1]
      have : (0 : ℚ) ≤ (maskCount n p.2 : ℚ) := by positivity
      linarith

lemma addEntry_concordant (est : ℕ → ℚ) (w : ℕ → ℚ) (tol : ℚ) (n : ℕ)
    (p : ℕ × (ℕ → Bool)) (acc : CAcc) :
    (addEntry est w tol n p acc).concordant =
      acc.concordant + nConOf est tol n p.1 p.2 := rfl

lemma addEntry_discordant (est : ℕ → ℚ) (w : ℕ → ℚ) (tol : ℚ) (n : ℕ)
    (p : ℕ × (ℕ → Bool)) (acc : CAcc) :
    (addEntry est w tol n p acc).discordant =
      acc.discordant + ((maskCount n p.2 : ℤ) - nConOf est tol n p.1 p.2 -
        nTiesOf est tol n p.1 p.2) := rfl

lemma addEntry_tied_risk (est : ℕ → ℚ) (w : ℕ → ℚ) (tol : ℚ) (n : ℕ)
    (p : ℕ × (ℕ → Bool)) (acc : CAcc) :
    (addEntry est w tol n p acc).tied_risk =
      acc.tied_risk + nTiesOf est tol n p.1 p.2 := rfl

lemma addEntry_numerator (est : ℕ → ℚ) (w : ℕ → ℚ) (tol : ℚ) (n : ℕ)
    (p : ℕ × (ℕ → Bool)) (acc : CAcc) :
    (addEntry est w tol n p acc).numerator =
      acc.numerator + w p.1 * nConOf est tol n p.1 p.2 +
        1 / 2 * (w p.1 * nTiesOf est tol n p.1 p.2) := rfl

lemma addEntry_denominator (est : ℕ → ℚ) (w : ℕ → ℚ) (tol : ℚ) (n : ℕ)
    (p : ℕ × (ℕ → Bool)) (acc : CAcc) :
    (addEntry est w tol n p acc).denominator =
      acc.denominator + w p.1 * maskCount n p.2 := rfl

/-! ### Negating the estimates -/

lemma tieAt_neg (est : ℕ → ℚ) (tol : ℚ) (ind k : ℕ) :
    tieAt (fun j => -est j) tol ind k = tieAt est tol ind k := by
  simp only [tieAt]
  have h : -est k - -est ind = est ind - est k := by ring
  rw [h, abs_sub_comm]

lemma entry_neg (est : ℕ → ℚ) (tol : ℚ) (n ind : ℕ) (mask : ℕ → Bool)
    (h0 : 0 ≤ tol)
    (hmask : ∀ k, k < n → mask k = true → tieAt est tol ind k = false) :
    nTiesOf est tol n ind mask = 0 ∧
    nTiesOf (fun j => -est j) tol n ind mask = 0 ∧
    nConOf (fun j => -est j) tol n ind mask + nConOf est tol n ind mask =
      maskCount n mask := by
  have hne : ∀ k, k < n → mask k = true → est k ≠ est ind := by
    intro k hk hm he
    have ht := hmask k hk hm
    rw [tieAt, he] at ht
    simp [sub_self] at ht
    linarith
  refine ⟨?_, ?_, ?_⟩
  · rw [nTiesOf, List.countP_eq_zero]
    intro a ha hcontra
    rw [List.mem_range] at ha
    rw [Bool.and_eq_true] at hcontra
    obtain ⟨hm, ht⟩ := hcontra
    rw [hmask a ha hm] at ht
    exact absurd ht (by simp)
  · rw [nTiesOf, List.countP_eq_zero]
    intro a ha hcontra
    rw [List.mem_range] at ha
    rw [Bool.and_eq_true] at hcontra
    obtain ⟨hm, ht⟩ := hcontra
    rw [tieAt_neg, hmask a ha hm] at ht
    exact absurd ht (by simp)
  · have e1 : nConOf est tol n ind mask =
        (List.range n).countP (fun k => mask k && decide (est k < est ind)) := by
      rw [nConOf]
      apply countP_ext
      intro a ha
      rw [List.mem_range] at ha
      cases hm : mask a
      · simp
      · rw [hmask a ha hm]
        simp
    have e2 : nConOf (fun j => -est j) tol n ind mask =
        (List.range n).countP
          (fun k => mask k && !decide (est k < est ind)) := by
      rw [nConOf]
      apply countP_ext
      intro a ha
      rw [List.mem_range] at ha
      cases hm : mask a
      · simp
      · rw [tieAt_neg, hmask a ha hm]
        have hne' := hne a ha hm
        by_cases h : est a < est ind
        · have h2 : ¬(-est a < -est ind) := by
            rw [neg_lt_neg_iff]
            exact lt_asymm h
          simp [h, h2]
        · have h2 : -est a < -est ind := by
            rw [neg_lt_neg_iff]
            exact lt_of_le_of_ne (le_of_not_lt h) (Ne.symm hne')
          simp [h, h2]
    rw [e1, e2, Nat.add_comm, maskCount]
    exact countP_and_add (List.range n) (fun k => mask k)
      (fun k => decide (est k < est ind))

lemma ciAccum_neg (est : ℕ → ℚ) (w : ℕ → ℚ) (tol : ℚ) (n : ℕ)
    (comp : List (ℕ × (ℕ → Bool))) (h0 : 0 ≤ tol)
    (hw : ∀ p ∈ comp, w p.1 = 1)
    (hmask : ∀ p ∈ comp, ∀ k, k < n → p.2 k = true →
      tieAt est tol p.1 k = false) :
    (ciAccum (fun j => -est j) w tol n comp).concordant =
      (ciAccum est w tol n comp).discordant ∧
    (ciAccum (fun j => -est j) w tol n comp).discordant =
      (ciAccum est w tol n comp).concordant ∧
    (ciAccum (fun j => -est j) w tol n comp).tied_risk =
      (ciAccum est w tol n comp).tied_risk ∧
    (ciAccum (fun j => -est j) w tol n comp).denominator =
      (ciAccum est w tol n comp).denominator ∧
    (ciAccum (fun j => -est j) w tol n comp).numerator =
      (ciAccum est w tol n comp).denominator -
        (ciAccum est w tol n comp).numerator := by
  induction comp with
  | nil => simp [ciAccum_nil, CAcc.zero]
  | cons p rest ih =>
    have hw1 : w p.1 = 1 := hw p (List.mem_cons_self p rest)
    obtain ⟨ih1, ih2, ih3, ih4, ih5⟩ := ih
      (fun q hq => hw q (List.mem_cons_of_mem p hq))
      (fun q hq => hmask q (List.mem_cons_of_mem p hq))
    obtain ⟨z1, z2, z3⟩ := entry_neg est tol n p.1 p.2 h0
      (hmask p (List.mem_cons_self p rest))
    have z3z : (nConOf (fun j => -est j) tol n p.1 p.2 : ℤ) +
        (nConOf est tol n p.1 p.2 : ℤ) = (maskCount n p.2 : ℤ) := by
      exact_mod_cast z3
    have z3q : (nConOf (fun j => -est j) tol n p.1 p.2 : ℚ) +
        (nConOf est tol n p.1 p.2 : ℚ) = (maskCount n p.2 : ℚ) := by
      exact_mod_cast z3
    simp only [ciAccum_cons, addEntry_concordant, addEntry_discordant,
      addEntry_tied_risk, addEntry_numerator, addEntry_denominator]
    rw [hw1, z1, z2, ih1, ih2, ih3, ih4, ih5]
    refine ⟨by push_cast; linarith [z3z], by push_cast; linarith [z3z],
      by push_cast; ring, by ring, by push_cast; linarith [z3q]⟩

/-! ### Pipeline-level lemmas -/

lemma theComparable_keys (ev : List Bool) (tm : List ℚ) :
    ∀ p ∈ (theComparable ev tm).1,
      evOrd ev tm p.1 = true ∧ p.1 < tm.length :=
  fun p hp => getComparable_keys (sampleEvent ev) (sampleTime tm) (ordAt tm)
    tm.length p hp

lemma theComparable_spec (ev : List Bool) (tm : List ℚ) :
    (∀ p ∈ (theComparable ev tm).1,
      p.1 < tm.length ∧ evOrd ev tm p.1 = true ∧
      ∀ k, k < tm.length →
        (p.2 k = true ↔ (tmOrd tm p.1 < tmOrd tm k ∨
          (tmOrd tm k = tmOrd tm p.1 ∧ evOrd ev tm k = false)))) ∧
    (∀ j, j < tm.length → evOrd ev tm j = true →
      (∃ k, k < tm.length ∧ k ≠ j ∧ tmOrd tm j ≤ tmOrd tm k) →
      ∃ m, (j, m) ∈ (theComparable ev tm).1) ∧
    (theComparable ev tm).2 =
      tiedPairs (evOrd ev tm) (tmOrd tm) 0 tm.length :=
  getComparable_spec ev tm

/-- When the mapping is non-empty and no assertion fires,
`_estimate_concordance_index` returns the accumulated totals. -/
lemma estimateCI_ok (ev : List Bool) (tm : List ℚ) (est w : List ℚ) (tol : ℚ)
    (hne : (theComparable ev tm).1 ≠ [])
    (hkeys : ∀ p ∈ (theComparable ev tm).1, evOrd ev tm p.1 = true) :
    estimateConcordanceIndex ev tm est w tol =
      .ok ⟨(if (theAccum ev tm est w tol).denominator = 0 then none
            else some ((theAccum ev tm est w tol).numerator /
              (theAccum ev tm est w tol).denominator)),
           (theAccum ev tm est w tol).concordant,
           (theAccum ev tm est w tol).discordant,
           (theAccum ev tm est w tol).tied_risk,
           (theComparable ev tm).2⟩ := by
  obtain ⟨p, rest, hc⟩ : ∃ p rest, (theComparable ev tm).1 = p :: rest := by
    cases h : (theComparable ev tm).1 with
    | nil => exact absurd h hne
    | cons p rest => exact ⟨p, rest, rfl⟩
  rw [hc] at hkeys
  simp only [estimateConcordanceIndex, theAccum]
  rw [hc, ciLoop_ok (evOrd ev tm) (estOrd est tm) (wtOrd w tm) tol tm.length
    (p :: rest) hkeys]

lemma checkInputs_ok (ev : List Bool) (tm : List ℚ) (est : List ℚ)
    (h1 : ev.length = tm.length) (h2 : est.length = tm.length)
    (h3 : 2 ≤ tm.length) (h4 : ∃ b ∈ ev, b = true) :
    checkInputs ev tm est = .ok () := by
  have hany : ev.any (fun b => b) = true := by
    rw [List.any_eq_true]
    obtain ⟨b, hb, hbt⟩ := h4
    exact ⟨b, hb, by rw [hbt]⟩
  unfold checkInputs
  rw [if_neg (by omega), if_neg (by omega), if_neg (by simp [hany])]

lemma concordanceIndexCensored_ok (ev : List Bool) (tm : List ℚ)
    (est : List ℚ) (tol : ℚ)
    (h1 : ev.length = tm.length) (h2 : est.length = tm.length)
    (h3 : 2 ≤ tm.length) (h4 : ∃ b ∈ ev, b = true) :
    concordanceIndexCensored ev tm est tol =
      estimateConcordanceIndex ev tm est (List.replicate est.length 1) tol := by
  unfold concordanceIndexCensored
  rw [checkInputs_ok ev tm est h1 h2 h3 h4]

lemma sampleEvent_mem (ev : List Bool) {a : ℕ} (ha : a < ev.length)
    (h : sampleEvent ev a = true) : ∃ b ∈ ev, b = true := by
  rw [sampleEvent, List.getD_eq_getElem _ _ ha] at h
  exact ⟨ev.get ⟨a, ha⟩, List.get_mem ev a ha, h⟩

/-- If an event sample `a` has a comparable partner `b` (strictly later time,
or equal time with `b` censored), the mapping holds an entry whose mask marks
`b`'s sort position. -/
lemma comparable_pair_exists (ev : List Bool) (tm : List ℚ)
    {a b : ℕ} (ha : a < tm.length) (hb : b < tm.length)
    (hev : sampleEvent ev a = true)
    (hcmp : sampleTime tm a < sampleTime tm b ∨
      (sampleTime tm a = sampleTime tm b ∧ sampleEvent ev b = false)) :
    ∃ p ∈ (theComparable ev tm).1, ∃ k, k < tm.length ∧ p.2 k = true := by
  obtain ⟨ja, hja, hjaa⟩ := ordAt_surj tm ha
  obtain ⟨jb, hjb, hjbb⟩ := ordAt_surj tm hb
  have hab : a ≠ b := by
    rcases hcmp with h | ⟨h, hbev⟩
    · intro he
      rw [he] at h
      exact absurd h (lt_irrefl _)
    · intro he
      rw [he, hbev] at hev
      exact absurd hev (by simp)
  have hjab : ja ≠ jb := fun he => hab (by rw [← hjaa, ← hjbb, he])
  have heva : evOrd ev tm ja = true := by rw [evOrd, hjaa]; exact hev
  have htm : tmOrd tm ja ≤ tmOrd tm jb := by
    rw [tmOrd, tmOrd, hjaa, hjbb]
    rcases hcmp with h | ⟨h, -⟩
    · exact le_of_lt h
    · exact le_of_eq h
  obtain ⟨hA, hB, hC⟩ := theComparable_spec ev tm
  obtain ⟨m, hm⟩ := hB ja hja heva ⟨jb, hjb, Ne.symm hjab, htm⟩
  refine ⟨(ja, m), hm, jb, hjb, ?_⟩
  rw [(hA (ja, m) hm).2.2 jb hjb]
  rcases hcmp with h | ⟨h, hbev⟩
  · left
    rw [tmOrd, tmOrd, hjaa, hjbb]
    exact h
  · right
    constructor
    · rw [tmOrd, tmOrd, hjaa, hjbb]
      exact h.symm
    · rw [evOrd, hjbb]
      exact hbev

lemma weights_one (est : List ℚ) (tm : List ℚ) (h2 : est.length = tm.length)
    {k : ℕ} (hk : k < tm.length) :
    wtOrd (List.replicate est.length 1) tm k = 1 := by
  rw [wtOrd, sampleEst]
  have hlt : ordAt tm k < (List.replicate est.length (1 : ℚ)).length := by
    rw [List.length_replicate, h2]
    exact ordAt_lt tm hk
  rw [List.getD_eq_getElem _ _ hlt]
  simp

/-- Any comparable pair makes the accumulated denominator strictly
positive (with the unit weights `concordance_index_censored` passes). -/
lemma theAccum_den_pos (ev : List Bool) (tm : List ℚ) (est : List ℚ)
    (tol : ℚ) (h2 : est.length = tm.length)
    {a b : ℕ} (ha : a < tm.length) (hb : b < tm.length)
    (hev : sampleEvent ev a = true)
    (hcmp : sampleTime tm a < sampleTime tm b ∨
      (sampleTime tm a = sampleTime tm b ∧ sampleEvent ev b = false)) :
    0 < (theAccum ev tm est (List.replicate est.length 1) tol).denominator := by
  obtain ⟨p, hp, k, hk, hmk⟩ := comparable_pair_exists ev tm ha hb hev hcmp
  have hw : ∀ q ∈ (theComparable ev tm).1,
      wtOrd (List.replicate est.length 1) tm q.1 = 1 :=
    fun q hq => weights_one est tm h2 ((theComparable_keys ev tm q hq).2)
  have hge := ciAccum_den_ge (estOrd est tm)
    (wtOrd (List.replicate est.length 1) tm) tol tm.length
    (theComparable ev tm).1 hw hp
  have hmc : 0 < maskCount tm.length p.2 := by
    rw [maskCount, List.countP_pos_iff]
    exact ⟨k, by rw [List.mem_range]; exact hk, hmk⟩
  have hmc' : (0 : ℚ) < (maskCount tm.length p.2 : ℚ) := by exact_mod_cast hmc
  exact lt_of_lt_of_le hmc' hge

/-- Counting tied (event, censored) pairs over sort positions equals
counting them over the original sample indices. -/
lemma tiedPairs_ord (ev : List Bool) (tm : List ℚ) :
    tiedPairs (evOrd ev tm) (tmOrd tm) 0 tm.length =
      tiedPairs (sampleEvent ev) (sampleTime tm) 0 tm.length := by
  rw [tiedPairs, tiedPairs]
  apply Finset.card_bij (fun p _ => (ordAt tm p.1, ordAt tm p.2))
  · rintro ⟨x, y⟩ hmem
    rw [Finset.mem_filter, Finset.mem_product, Finset.mem_Ico,
      Finset.mem_Ico] at hmem
    obtain ⟨⟨⟨-, hx⟩, -, hy⟩, h1, h2, h3⟩ := hmem
    rw [Finset.mem_filter, Finset.mem_product, Finset.mem_Ico, Finset.mem_Ico]
    exact ⟨⟨⟨Nat.zero_le _, ordAt_lt tm hx⟩,
      ⟨Nat.zero_le _, ordAt_lt tm hy⟩⟩, h1, h2, h3⟩
  · rintro ⟨x1, y1⟩ h1 ⟨x2, y2⟩ h2 heq
    rw [Finset.mem_filter, Finset.mem_product, Finset.mem_Ico,
      Finset.mem_Ico] at h1 h2
    rw [Prod.mk.injEq] at heq ⊢
    exact ⟨ordAt_inj tm h1.1.1.2 h2.1.1.2 heq.1,
      ordAt_inj tm h1.1.2.2 h2.1.2.2 heq.2⟩
  · rintro ⟨u, v⟩ hmem
    rw [Finset.mem_filter, Finset.mem_product, Finset.mem_Ico,
      Finset.mem_Ico] at hmem
    obtain ⟨⟨⟨-, hu⟩, -, hv⟩, h1, h2, h3⟩ := hmem
    obtain ⟨ju, hju, hjuu⟩ := ordAt_surj tm hu
    obtain ⟨jv, hjv, hjvv⟩ := ordAt_surj tm hv
    refine ⟨(ju, jv), ?_, ?_⟩
    · rw [Finset.mem_filter, Finset.mem_product, Finset.mem_Ico,
        Finset.mem_Ico]
      refine ⟨⟨⟨Nat.zero_le _, hju⟩, Nat.zero_le _, hjv⟩, ?_, ?_, ?_⟩
      · rw [evOrd, hjuu]; exact h1
      · rw [evOrd, hjvv]; exact h2
      · rw [tmOrd, tmOrd, hjuu, hjvv]; exact h3
    · rw [Prod.mk.injEq]
      exact ⟨hjuu, hjvv⟩

/-- Whatever `concordance_index_censored` successfully returns is exactly the
accumulated totals over the comparable mapping. -/
lemma cIC_ok_inv (ev : List Bool) (tm est : List ℚ) (tol : ℚ) (r : CIResult)
    (h : concordanceIndexCensored ev tm est tol = .ok r) :
    r = ⟨(if (theAccum ev tm est (List.replicate est.length 1) tol).denominator
            = 0 then none
          else some ((theAccum ev tm est (List.replicate est.length 1)
              tol).numerator /
            (theAccum ev tm est (List.replicate est.length 1)
              tol).denominator)),
         (theAccum ev tm est (List.replicate est.length 1) tol).concordant,
         (theAccum ev tm est (List.replicate est.length 1) tol).discordant,
         (theAccum ev tm est (List.replicate est.length 1) tol).tied_risk,
         (theComparable ev tm).2⟩ := by
  unfold concordanceIndexCensored at h
  cases hchk : checkInputs ev tm est with
  | error e => rw [hchk] at h; simp at h
  | ok u =>
    rw [hchk] at h
    simp only [] at h
    cases hc : (theComparable ev tm).1 with
    | nil =>
      simp only [estimateConcordanceIndex] at h
      rw [hc] at h
      simp at h
    | cons p rest =>
      rw [estimateCI_ok ev tm est (List.replicate est.length 1) tol
        (by rw [hc]; simp)
        (fun q hq => (theComparable_keys ev tm q hq).1)] at h
      rw [Except.ok.injEq] at h
      exact h.symm

lemma estOrd_neg (est tm : List ℚ) :
    estOrd (est.map (fun x => -x)) tm = fun k => -(estOrd est tm k) := by
  funext k
  rw [estOrd, estOrd, sampleEst, sampleEst]
  by_cases h : ordAt tm k < est.length
  · rw [List.getD_eq_getElem _ _ (by simpa using h),
      List.getD_eq_getElem _ _ h, List.getElem_map]
  · rw [List.getD_eq_default _ _ (by simpa using h),
      List.getD_eq_default _ _ (by omega)]
    exact neg_zero.symm

/-! ### The adaptation layer (`concordance_index`) -/

lemma psum_cons (a : ℚ) (t : List ℚ) (m : ℕ) :
    ∑ k ∈ Finset.range (m + 1), (a :: t).getD k 0 =
      a + ∑ k ∈ Finset.range m, t.getD k 0 := by
  rw [Finset.sum_range_succ']
  simp only [List.getD_cons_succ, List.getD_cons_zero]
  exact add_comm _ _

lemma pprod_cons (a : ℚ) (t : List ℚ) (m : ℕ) :
    ∏ k ∈ Finset.range (m + 1), (1 - (a :: t).getD k 0) =
      (1 - a) * ∏ k ∈ Finset.range m, (1 - t.getD k 0) := by
  rw [Finset.prod_range_succ']
  simp only [List.getD_cons_succ, List.getD_cons_zero]
  exact mul_comm _ _

lemma cumsum_sub_sum (r : List ℚ) :
    ∀ c : ℚ, ((cumsum r).map (fun s => c - s)).sum =
      ∑ j ∈ Finset.range r.length,
        (c - ∑ k ∈ Finset.range (j + 1), r.getD k 0) := by
  induction r with
  | nil => intro c; simp [cumsum]
  | cons a t ih =>
    intro c
    rw [cumsum]
    simp only [List.map_cons, List.map_map, List.sum_cons]
    have hfun : ((fun s => c - s) ∘ fun x => a + x) =
        (fun x => (c - a) - x) := by
      funext x; simp; ring
    rw [hfun, ih (c - a)]
    rw [List.length_cons, Finset.sum_range_succ']
    have hterm : ∀ j, c - ∑ k ∈ Finset.range (j + 1 + 1), (a :: t).getD k 0 =
        (c - a) - ∑ k ∈ Finset.range (j + 1), t.getD k 0 := by
      intro j
      rw [psum_cons]
      ring
    rw [Finset.sum_congr rfl (fun j _ => hterm j)]
    have h0 : c - ∑ k ∈ Finset.range (0 + 1), (a :: t).getD k 0 = c - a := by
      rw [psum_cons]
      simp
    rw [h0]
    ring

lemma cumprod_one_sub_sum (r : List ℚ) :
    ∀ c : ℚ, ((cumprod (r.map (fun x => 1 - x))).map (fun x => c * x)).sum =
      ∑ j ∈ Finset.range r.length,
        c * ∏ k ∈ Finset.range (j + 1), (1 - r.getD k 0) := by
  induction r with
  | nil => intro c; simp [cumprod]
  | cons a t ih =>
    intro c
    simp only [List.map_cons]
    rw [cumprod]
    simp only [List.map_cons, List.map_map, List.sum_cons]
    have hfun : ((fun x => c * x) ∘ fun x => (1 - a) * x) =
        (fun x => (c * (1 - a)) * x) := by
      funext x; simp; ring
    rw [hfun, ih (c * (1 - a))]
    rw [List.length_cons, Finset.sum_range_succ']
    have hterm : ∀ j,
        c * ∏ k ∈ Finset.range (j + 1 + 1), (1 - (a :: t).getD k 0) =
        (c * (1 - a)) * ∏ k ∈ Finset.range (j + 1), (1 - t.getD k 0) := by
      intro j
      rw [pprod_cons]
      ring
    rw [Finset.sum_congr rfl (fun j _ => hterm j)]
    have h0 : c * ∏ k ∈ Finset.range (0 + 1), (1 - (a :: t).getD k 0) =
        c * (1 - a) := by
      rw [pprod_cons]
      simp
    rw [h0]
    ring

lemma incidence_row_sum (r : List ℚ) :
    ((cumsum r).map (fun s => 1 - s)).sum = incidenceRiskSpec r := by
  rw [incidenceRiskSpec]
  exact cumsum_sub_sum r 1

lemma survival_row_sum (r : List ℚ) :
    (cumprod (r.map (fun x => 1 - x))).sum = survivalRiskSpec r := by
  have h := cumprod_one_sub_sum r 1
  simp only [one_mul] at h
  rw [survivalRiskSpec]
  rw [← h]
  simp

/-- The coxph path of `concordance_index`: an `(n, 1)` prediction column is
squeezed, negated, and handed to the core. -/
lemma adapter_coxph (y_true : List (ℚ × ℚ)) (r0 : List ℚ)
    (rest : List (List ℚ)) (h1 : r0.length = 1) :
    concordanceIndex y_true (.mat (r0 :: rest)) none =
      (concordanceIndexCensored (y_true.map (fun p => decide (p.2 ≠ 0)))
        (y_true.map Prod.fst) ((r0 :: rest).map (fun r => -(r.headD 0)))
        (1 / 100000000)).map (fun r => r.cindex) := by
  simp only [concordanceIndex]
  rw [if_pos]
  · rw [List.headD_cons]
    exact h1

/-- The discrete path of `concordance_index`: rows are collapsed through
`cumsum`/`cumprod` to the risk the spec describes, negated, and handed to the
core. -/
lemma adapter_discrete (y_true : List (ℚ × ℚ)) (rows : List (List ℚ))
    (tp : Option String) (T : ℕ) (hT : 1 < T)
    (hrows : ∀ r ∈ rows, r.length = T) (hne : rows ≠ []) :
    concordanceIndex y_true (.mat rows) tp =
      (concordanceIndexCensored (y_true.map (fun p => decide (p.2 ≠ 0)))
        (y_true.map Prod.fst)
        (rows.map (fun r => -(if tp = some ("incidence") then
          incidenceRiskSpec r else survivalRiskSpec r)))
        (1 / 100000000)).map (fun r => r.cindex) := by
  obtain ⟨r0, rest, rfl⟩ : ∃ r0 rest, rows = r0 :: rest := by
    cases rows with
    | nil => exact absurd rfl hne
    | cons x xs => exact ⟨x, xs, rfl⟩
  simp only [concordanceIndex]
  rw [if_neg]
  swap
  · rw [List.headD_cons, hrows r0 (List.mem_cons_self r0 rest)]
    omega
  by_cases htp : tp = some ("incidence")
  · rw [if_pos htp]
    have hmap : List.map (fun x => -x) (List.map (fun r => r.sum)
        (List.map (fun r => (cumsum r).map (fun s => 1 - s)) (r0 :: rest))) =
        List.map (fun r => -(if tp = some ("incidence") then
          incidenceRiskSpec r else survivalRiskSpec r)) (r0 :: rest) := by
      rw [List.map_map, List.map_map]
      congr 1
      funext r
      simp only [Function.comp, if_pos htp]
      rw [incidence_row_sum]
    rw [hmap]
  · rw [if_neg htp]
    have hmap : List.map (fun x => -x) (List.map (fun r => r.sum)
        (List.map (fun r => cumprod (r.map (fun x => 1 - x))) (r0 :: rest))) =
        List.map (fun r => -(if tp = some ("incidence") then
          incidenceRiskSpec r else survivalRiskSpec r)) (r0 :: rest) := by
      rw [List.map_map, List.map_map]
      congr 1
      funext r
      simp only [Function.comp, if_neg htp]
      rw [survival_row_sum]
    rw [hmap]

lemma theComparable_ne_nil (ev : List Bool) (tm : List ℚ)
    {a b : ℕ} (ha : a < tm.length) (hb : b < tm.length)
    (hev : sampleEvent ev a = true)
    (hcmp : sampleTime tm a < sampleTime tm b ∨
      (sampleTime tm a = sampleTime tm b ∧ sampleEvent ev b = false)) :
    (theComparable ev tm).1 ≠ [] := by
  obtain ⟨p, hp, -⟩ := comparable_pair_exists ev tm ha hb hev hcmp
  intro hnil
  rw [hnil] at hp
  simp at hp

/-! ### Claim C1 -/

/-- C1 counterexample: on the validated input `event_time = [1, 1]`,
`event_indicator = [true, true]` (two events tied in time) the comparable
mapping is non-empty (keys 0 and 1, both with empty masks), yet the
accumulated denominator is 0, so `numerator/denominator` is the float NaN
(modelled by `cindex = none`) — refuting "a non-empty mapping guarantees
`denominator > 0`". -/
theorem c1_counterexample :
    (theComparable [true, true] [1, 1]).1.map Prod.fst = [0, 1] ∧
    (theAccum [true, true] [1, 1] [3, 7] (List.replicate 2 1)
      (1 / 100000000)).denominator = 0 ∧
    concordanceIndexCensored [true, true] [1, 1] [3, 7] (1 / 100000000) =
      .ok ⟨none, 0, 0, 0, 0⟩ :=
  ⟨by with_unfolding_all rfl, by with_unfolding_all rfl,
   by with_unfolding_all rfl⟩

/-- C1 (amended): for every validated input whose comparable mapping contains
at least one actually comparable pair (an event sample `a` together with a
sample `b` at a strictly later time, or censored at the same time), the
denominator accumulated by `_estimate_concordance_index` is strictly
positive, and `cindex = numerator/denominator` is a real number, not NaN. -/
theorem c1_denominator_pos (ev : List Bool) (tm : List ℚ) (est : List ℚ)
    (tol : ℚ) (a b : ℕ)
    (hlen1 : ev.length = tm.length) (hlen2 : est.length = tm.length)
    (hn : 2 ≤ tm.length) (ha : a < tm.length) (hb : b < tm.length)
    (hev : sampleEvent ev a = true)
    (hcmp : sampleTime tm a < sampleTime tm b ∨
      (sampleTime tm a = sampleTime tm b ∧ sampleEvent ev b = false)) :
    0 < (theAccum ev tm est (List.replicate est.length 1) tol).denominator ∧
    concordanceIndexCensored ev tm est tol =
      .ok ⟨some ((theAccum ev tm est (List.replicate est.length 1)
            tol).numerator /
          (theAccum ev tm est (List.replicate est.length 1) tol).denominator),
        (theAccum ev tm est (List.replicate est.length 1) tol).concordant,
        (theAccum ev tm est (List.replicate est.length 1) tol).discordant,
        (theAccum ev tm est (List.replicate est.length 1) tol).tied_risk,
        (theComparable ev tm).2⟩ := by
  have hpos := theAccum_den_pos ev tm est tol hlen2 ha hb hev hcmp
  refine ⟨hpos, ?_⟩
  rw [concordanceIndexCensored_ok ev tm est tol hlen1 hlen2 hn
      (sampleEvent_mem ev (by omega) hev),
    estimateCI_ok ev tm est (List.replicate est.length 1) tol
      (theComparable_ne_nil ev tm ha hb hev hcmp)
      (fun p hp => (theComparable_keys ev tm p hp).1),
    if_neg (ne_of_gt hpos)]

/-- C1 witness: a concrete validated input with one comparable pair. -/
theorem c1_denominator_pos_witness :
    0 < (theAccum [true, false] [1, 2] [5, 2] (List.replicate 2 1)
      (1 / 100000000)).denominator ∧
    concordanceIndexCensored [true, false] [1, 2] [5, 2] (1 / 100000000) =
      .ok ⟨some ((theAccum [true, false] [1, 2] [5, 2] (List.replicate 2 1)
            (1 / 100000000)).numerator /
          (theAccum [true, false] [1, 2] [5, 2] (List.replicate 2 1)
            (1 / 100000000)).denominator),
        (theAccum [true, false] [1, 2] [5, 2] (List.replicate 2 1)
          (1 / 100000000)).concordant,
        (theAccum [true, false] [1, 2] [5, 2] (List.replicate 2 1)
          (1 / 100000000)).discordant,
        (theAccum [true, false] [1, 2] [5, 2] (List.replicate 2 1)
          (1 / 100000000)).tied_risk,
        (theComparable [true, false] [1, 2]).2⟩ :=
  c1_denominator_pos [true, false] [1, 2] [5, 2] (1 / 100000000) 0 1 rfl rfl
    (by decide) (by decide) (by decide) (by decide) (by decide)

/-! ### Claim C2 -/

/-- C2 counterexample: `event_time = [2, 2]`, `event_indicator =
[true, true]`, `estimate = [1, 4]` is accepted by validation (n = 2, events
present), yet the returned cindex is the NaN of `0.0/0.0` (modelled as
`none`), which is not a real number in `[0, 1]`. -/
theorem c2_counterexample :
    concordanceIndexCensored [true, true] [2, 2] [1, 4] (1 / 100000000) =
      .ok ⟨none, 0, 0, 0, 0⟩ := by
  with_unfolding_all rfl

/-- C2 (amended): for every input accepted by validation that has at least
one comparable pair, the returned cindex is a real number `q` with
`0 ≤ q ≤ 1`. -/
theorem c2_range (ev : List Bool) (tm : List ℚ) (est : List ℚ) (tol : ℚ)
    (a b : ℕ)
    (hlen1 : ev.length = tm.length) (hlen2 : est.length = tm.length)
    (hn : 2 ≤ tm.length) (ha : a < tm.length) (hb : b < tm.length)
    (hev : sampleEvent ev a = true)
    (hcmp : sampleTime tm a < sampleTime tm b ∨
      (sampleTime tm a = sampleTime tm b ∧ sampleEvent ev b = false)) :
    concordanceIndexCensored ev tm est tol =
      .ok ⟨some ((theAccum ev tm est (List.replicate est.length 1)
            tol).numerator /
          (theAccum ev tm est (List.replicate est.length 1) tol).denominator),
        (theAccum ev tm est (List.replicate est.length 1) tol).concordant,
        (theAccum ev tm est (List.replicate est.length 1) tol).discordant,
        (theAccum ev tm est (List.replicate est.length 1) tol).tied_risk,
        (theComparable ev tm).2⟩ ∧
    0 ≤ (theAccum ev tm est (List.replicate est.length 1) tol).numerator /
        (theAccum ev tm est (List.replicate est.length 1) tol).denominator ∧
    (theAccum ev tm est (List.replicate est.length 1) tol).numerator /
        (theAccum ev tm est (List.replicate est.length 1) tol).denominator
      ≤ 1 := by
  have hpos := theAccum_den_pos ev tm est tol hlen2 ha hb hev hcmp
  have hw : ∀ q ∈ (theComparable ev tm).1,
      wtOrd (List.replicate est.length 1) tm q.1 = 1 :=
    fun q hq => weights_one est tm hlen2 ((theComparable_keys ev tm q hq).2)
  obtain ⟨hnum0, hnumle⟩ := ciAccum_num_bounds (estOrd est tm)
    (wtOrd (List.replicate est.length 1) tm) tol tm.length
    (theComparable ev tm).1 hw
  refine ⟨?_, div_nonneg hnum0 (le_of_lt hpos), ?_⟩
  · rw [concordanceIndexCensored_ok ev tm est tol hlen1 hlen2 hn
        (sampleEvent_mem ev (by omega) hev),
      estimateCI_ok ev tm est (List.replicate est.length 1) tol
        (theComparable_ne_nil ev tm ha hb hev hcmp)
        (fun p hp => (theComparable_keys ev tm p hp).1),
      if_neg (ne_of_gt hpos)]
  · rw [div_le_one hpos]
    exact hnumle

/-- C2 witness: a concrete validated input with comparable pairs. -/
theorem c2_range_witness :
    concordanceIndexCensored [false, true] [4, 1] [2, 3] (1 / 100000000) =
      .ok ⟨some ((theAccum [false, true] [4, 1] [2, 3] (List.replicate 2 1)
            (1 / 100000000)).numerator /
          (theAccum [false, true] [4, 1] [2, 3] (List.replicate 2 1)
            (1 / 100000000)).denominator),
        (theAccum [false, true] [4, 1] [2, 3] (List.replicate 2 1)
          (1 / 100000000)).concordant,
        (theAccum [false, true] [4, 1] [2, 3] (List.replicate 2 1)
          (1 / 100000000)).discordant,
        (theAccum [false, true] [4, 1] [2, 3] (List.replicate 2 1)
          (1 / 100000000)).tied_risk,
        (theComparable [false, true] [4, 1]).2⟩ ∧
    0 ≤ (theAccum [false, true] [4, 1] [2, 3] (List.replicate 2 1)
          (1 / 100000000)).numerator /
        (theAccum [false, true] [4, 1] [2, 3] (List.replicate 2 1)
          (1 / 100000000)).denominator ∧
    (theAccum [false, true] [4, 1] [2, 3] (List.replicate 2 1)
          (1 / 100000000)).numerator /
        (theAccum [false, true] [4, 1] [2, 3] (List.replicate 2 1)
          (1 / 100000000)).denominator ≤ 1 :=
  c2_range [false, true] [4, 1] [2, 3] (1 / 100000000) 1 0 rfl rfl
    (by decide) (by decide) (by decide) (by decide) (by decide)

/-! ### Claim C3 -/

/-- C3 counterexample: `event_time = [1, 2]`, both samples events.  The
sample at sort position 1 is uncensored, yet the comparable mapping contains
no entry for it (its group starts at the final position, which the loop
`while i < n_samples - 1` never processes): the mapping's only key is 0. -/
theorem c3_counterexample :
    evOrd [true, true] [1, 2] 1 = true ∧
    (theComparable [true, true] [1, 2]).1.map Prod.fst = [0] :=
  ⟨by with_unfolding_all rfl, by with_unfolding_all rfl⟩

/-- C3 (amended): for every validated input, every uncensored sample that is
not alone at the strictly latest event time (i.e. some other sample has an
event time at least as large) owns an entry of the comparable mapping, keyed
by its sort position, whose mask is true exactly at the sort positions of
samples with strictly later event times and of censored samples sharing its
event time — and false for events at the same time, for the sample itself,
and for all earlier-time samples. -/
theorem c3_mask_characterisation (ev : List Bool) (tm : List ℚ)
    (hlen1 : ev.length = tm.length) (hn : 2 ≤ tm.length) :
    ∀ j, j < tm.length → evOrd ev tm j = true →
      (∃ k, k < tm.length ∧ k ≠ j ∧ tmOrd tm j ≤ tmOrd tm k) →
      ∃ m, (j, m) ∈ (theComparable ev tm).1 ∧
        ∀ k, k < tm.length →
          (m k = true ↔ (tmOrd tm j < tmOrd tm k ∨
            (tmOrd tm k = tmOrd tm j ∧ evOrd ev tm k = false))) := by
  intro j hj hev hex
  obtain ⟨hA, hB, -⟩ := theComparable_spec ev tm
  obtain ⟨m, hm⟩ := hB j hj hev hex
  exact ⟨m, hm, fun k hk => (hA (j, m) hm).2.2 k hk⟩

/-- C3 witness: times `[1, 2, 2]`, events `[T, T, F]`; sort position 1 (an
event at time 2 with a censored sample tied at time 2) gets a mask of the
characterised shape. -/
theorem c3_mask_characterisation_witness :
    ∃ m, (1, m) ∈ (theComparable [true, true, false] [1, 2, 2]).1 ∧
      ∀ k, k < 3 →
        (m k = true ↔ (tmOrd [1, 2, 2] 1 < tmOrd [1, 2, 2] k ∨
          (tmOrd [1, 2, 2] k = tmOrd [1, 2, 2] 1 ∧
            evOrd [true, true, false] [1, 2, 2] k = false))) :=
  c3_mask_characterisation [true, true, false] [1, 2, 2] rfl (by decide) 1
    (by decide) (by with_unfolding_all decide)
    ⟨2, by decide, by decide, by with_unfolding_all decide⟩

/-! ### Claim C4 -/

/-- C4: the three data-adequacy failures are distinct errors, each raised
before any concordance value is computed: fewer than two samples raises the
minimum-two-samples error; an all-false event indicator raises the
all-samples-censored error; an empty comparable mapping raises
`NoComparablePairException`.  (None of them returns `.ok`, so none is coerced
to 0.0 or NaN.) -/
theorem c4_distinct_errors :
    (∀ (ev : List Bool) (tm est : List ℚ) (tol : ℚ),
      ev.length = tm.length → est.length = tm.length → tm.length < 2 →
      concordanceIndexCensored ev tm est tol = .error .minTwoSamples) ∧
    (∀ (ev : List Bool) (tm est : List ℚ) (tol : ℚ),
      ev.length = tm.length → est.length = tm.length → 2 ≤ tm.length →
      (∀ x ∈ ev, x = false) →
      concordanceIndexCensored ev tm est tol = .error .allCensored) ∧
    (∀ (ev : List Bool) (tm est : List ℚ) (tol : ℚ),
      ev.length = tm.length → est.length = tm.length → 2 ≤ tm.length →
      (∃ x ∈ ev, x = true) → (theComparable ev tm).1 = [] →
      concordanceIndexCensored ev tm est tol = .error .noComparablePairs) := by
  refine ⟨?_, ?_, ?_⟩
  · intro ev tm est tol h1 h2 h3
    unfold concordanceIndexCensored checkInputs
    rw [if_neg (by omega), if_pos h3]
  · intro ev tm est tol h1 h2 h3 h4
    have hany : ev.any (fun x => x) = false := by
      rw [List.any_eq_false]
      intro x hx
      rw [h4 x hx]
      simp
    unfold concordanceIndexCensored checkInputs
    rw [if_neg (by omega), if_neg (by omega), if_pos (by simp [hany])]
  · intro ev tm est tol h1 h2 h3 h4 hempty
    rw [concordanceIndexCensored_ok ev tm est tol h1 h2 h3 h4]
    simp only [estimateConcordanceIndex]
    rw [hempty]

/-- C4 witness: a 1-sample input, an all-censored input, and an input whose
only event has the latest observed time (no comparable pairs). -/
theorem c4_distinct_errors_witness :
    concordanceIndexCensored [true] [1] [5] (1 / 100000000) =
      .error .minTwoSamples ∧
    concordanceIndexCensored [false, false] [1, 2] [5, 6] (1 / 100000000) =
      .error .allCensored ∧
    concordanceIndexCensored [false, true] [1, 2] [5, 6] (1 / 100000000) =
      .error .noComparablePairs :=
  ⟨c4_distinct_errors.1 [true] [1] [5] (1 / 100000000) rfl rfl (by decide),
   c4_distinct_errors.2.1 [false, false] [1, 2] [5, 6] (1 / 100000000) rfl rfl
     (by decide) (by decide),
   c4_distinct_errors.2.2 [false, true] [1, 2] [5, 6] (1 / 100000000) rfl rfl
     (by decide) (by decide) (by with_unfolding_all rfl)⟩

/-! ### Claim C5 -/

/-- C5: `tied_time` — as computed by `_get_comparable` and as propagated by
`concordance_index_censored` — equals the number of ordered pairs (event
sample, censored sample) sharing the identical event time; and a pair of two
events at the identical time is never comparable (the mask of an event's
entry is false at every same-time event's sort position), so it contributes
to none of concordant / discordant / tied_risk. -/
theorem c5_tied_time (ev : List Bool) (tm : List ℚ) (est : List ℚ) (tol : ℚ)
    (hlen1 : ev.length = tm.length) (hlen2 : est.length = tm.length)
    (hn : 2 ≤ tm.length) :
    (theComparable ev tm).2 =
      tiedPairs (sampleEvent ev) (sampleTime tm) 0 tm.length ∧
    (∀ r, concordanceIndexCensored ev tm est tol = .ok r →
      r.tied_time = tiedPairs (sampleEvent ev) (sampleTime tm) 0 tm.length) ∧
    (∀ p ∈ (theComparable ev tm).1, ∀ k, k < tm.length →
      evOrd ev tm k = true → tmOrd tm k = tmOrd tm p.1 → p.2 k = false) := by
  have h1 : (theComparable ev tm).2 =
      tiedPairs (sampleEvent ev) (sampleTime tm) 0 tm.length := by
    rw [(theComparable_spec ev tm).2.2, tiedPairs_ord]
  refine ⟨h1, ?_, ?_⟩
  · intro r hr
    rw [cIC_ok_inv ev tm est tol r hr]
    exact h1
  · intro p hp k hk hevk htmk
    obtain ⟨hA, -, -⟩ := theComparable_spec ev tm
    have hiff := (hA p hp).2.2 k hk
    rw [Bool.eq_false_iff]
    intro hcontra
    rcases hiff.mp hcontra with h | ⟨h1', h2'⟩
    · rw [htmk] at h
      exact absurd h (lt_irrefl _)
    · rw [hevk] at h2'
      exact absurd h2' (by simp)

/-- C5 witness: times `[2, 2, 1]`, events `[T, F, T]`: exactly one
(event, censored) pair tied in time. -/
theorem c5_tied_time_witness :
    (theComparable [true, false, true] [2, 2, 1]).2 =
      tiedPairs (sampleEvent [true, false, true]) (sampleTime [2, 2, 1])
        0 3 ∧
    (theComparable [true, false, true] [2, 2, 1]).2 = 1 :=
  ⟨(c5_tied_time [true, false, true] [2, 2, 1] [1, 2, 3] (1 / 100000000)
      rfl rfl (by decide)).1, by with_unfolding_all rfl⟩

/-! ### Claim C6 -/

/-- C6: with the unit weights `concordance_index_censored` passes, the
counters satisfy `concordant + discordant + tied_risk = denominator`: every
comparable (non-tied-time) pair is classified into exactly one of the three
categories, and the denominator counts them all. -/
theorem c6_pair_conservation (ev : List Bool) (tm : List ℚ) (est : List ℚ)
    (tol : ℚ) (hlen1 : ev.length = tm.length) (hlen2 : est.length = tm.length)
    (hn : 2 ≤ tm.length) :
    ((theAccum ev tm est (List.replicate est.length 1) tol).concordant +
      (theAccum ev tm est (List.replicate est.length 1) tol).discordant +
      (theAccum ev tm est (List.replicate est.length 1) tol).tied_risk : ℚ) =
      (theAccum ev tm est (List.replicate est.length 1) tol).denominator ∧
    (∀ r, concordanceIndexCensored ev tm est tol = .ok r →
      ((r.concordant + r.discordant + r.tied_risk : ℚ) =
        (theAccum ev tm est (List.replicate est.length 1) tol).denominator)) := by
  have hw : ∀ q ∈ (theComparable ev tm).1,
      wtOrd (List.replicate est.length 1) tm q.1 = 1 :=
    fun q hq => weights_one est tm hlen2 ((theComparable_keys ev tm q hq).2)
  have h1 := ciAccum_conservation (estOrd est tm)
    (wtOrd (List.replicate est.length 1) tm) tol tm.length
    (theComparable ev tm).1 hw
  refine ⟨h1, ?_⟩
  intro r hr
  rw [cIC_ok_inv ev tm est tol r hr]
  exact h1

/-- C6 witness: events `[T, T]`, times `[1, 2]`, estimates `[3, 1]` — one
comparable pair, concordant; the denominator is 1. -/
theorem c6_pair_conservation_witness :
    ((theAccum [true, true] [1, 2] [3, 1] (List.replicate 2 1)
        (1 / 100000000)).concordant +
      (theAccum [true, true] [1, 2] [3, 1] (List.replicate 2 1)
        (1 / 100000000)).discordant +
      (theAccum [true, true] [1, 2] [3, 1] (List.replicate 2 1)
        (1 / 100000000)).tied_risk : ℚ) =
      (theAccum [true, true] [1, 2] [3, 1] (List.replicate 2 1)
        (1 / 100000000)).denominator ∧
    (theAccum [true, true] [1, 2] [3, 1] (List.replicate 2 1)
      (1 / 100000000)).denominator = 1 :=
  ⟨(c6_pair_conservation [true, true] [1, 2] [3, 1] (1 / 100000000) rfl rfl
      (by decide)).1, by with_unfolding_all rfl⟩

/-! ### Claim C7 -/

/-- C7: every key of the mapping `_get_comparable` produces refers to an
uncensored sample (so the assertion in `_estimate_concordance_index` never
fires on a mapping coming from `_get_comparable`); and any mapping containing
a censored key makes the accumulation loop fail with the assertion error
instead of returning totals. -/
theorem c7_censored_keys :
    (∀ (event_indicator : ℕ → Bool) (event_time : ℕ → ℚ) (order : ℕ → ℕ)
      (n : ℕ), ∀ p ∈ (getComparable event_indicator event_time order n).1,
      event_indicator (order p.1) = true) ∧
    (∀ (ev : ℕ → Bool) (est w : ℕ → ℚ) (tol : ℚ) (n : ℕ)
      (comp : List (ℕ × (ℕ → Bool))),
      (∃ p ∈ comp, ev p.1 = false) →
      ciLoop ev est w tol n comp = .error .assertionCensoredSample) :=
  ⟨fun evf tmf ordf n p hp => (getComparable_keys evf tmf ordf n p hp).1,
   fun ev est w tol n comp hex => ciLoop_assert ev est w tol n comp hex⟩

/-- C7 witness: the concrete mapping for times `[1, 2]` has only uncensored
keys, and a hand-made mapping with a censored key is rejected by the
assertion. -/
theorem c7_censored_keys_witness :
    (∀ p ∈ (getComparable (sampleEvent [true, false]) (sampleTime [1, 2])
      (ordAt [1, 2]) 2).1,
      sampleEvent [true, false] (ordAt [1, 2] p.1) = true) ∧
    ciLoop (fun _ => false) (fun _ => 0) (fun _ => 1) (1 / 100000000) 2
      [(0, fun _ => true)] = .error .assertionCensoredSample :=
  ⟨c7_censored_keys.1 (sampleEvent [true, false]) (sampleTime [1, 2])
      (ordAt [1, 2]) 2,
   c7_censored_keys.2 (fun _ => false) (fun _ => 0) (fun _ => 1)
     (1 / 100000000) 2 [(0, fun _ => true)]
     ⟨(0, fun _ => true), by simp, rfl⟩⟩

/-! ### Claim C8 -/

/-- C8: for an `n × T` prediction with `T > 1`, `concordance_index` collapses
each row to one scalar — with `type_pred = 'incidence'` the sum over time
bins of (1 - cumulative sum of the prediction), otherwise the sum over time
bins of the cumulative product of (1 - prediction) — negates it and passes it
to `concordance_index_censored`; for `n × 1` input the negated prediction
itself is passed; in both cases only the first element of the returned tuple
(the cindex) is handed back. -/
theorem c8_adapter :
    (∀ (y_true : List (ℚ × ℚ)) (rows : List (List ℚ)) (tp : Option String)
      (T : ℕ), 1 < T → (∀ r ∈ rows, r.length = T) → rows ≠ [] →
      concordanceIndex y_true (.mat rows) tp =
        (concordanceIndexCensored (y_true.map (fun p => decide (p.2 ≠ 0)))
          (y_true.map Prod.fst)
          (rows.map (fun r => -(if tp = some ("incidence") then
            incidenceRiskSpec r else survivalRiskSpec r)))
          (1 / 100000000)).map (fun r => r.cindex)) ∧
    (∀ (y_true : List (ℚ × ℚ)) (rows : List (List ℚ)),
      (∀ r ∈ rows, r.length = 1) → rows ≠ [] →
      concordanceIndex y_true (.mat rows) none =
        (concordanceIndexCensored (y_true.map (fun p => decide (p.2 ≠ 0)))
          (y_true.map Prod.fst) (rows.map (fun r => -(r.headD 0)))
          (1 / 100000000)).map (fun r => r.cindex)) := by
  constructor
  · intro y_true rows tp T hT hrows hne
    exact adapter_discrete y_true rows tp T hT hrows hne
  · intro y_true rows hrows hne
    obtain ⟨r0, rest, rfl⟩ : ∃ r0 rest, rows = r0 :: rest := by
      cases rows with
      | nil => exact absurd rfl hne
      | cons x xs => exact ⟨x, xs, rfl⟩
    exact adapter_coxph y_true r0 rest (hrows r0 (List.mem_cons_self r0 rest))

/-- C8 witness: a 2 × 2 incidence matrix and a 2 × 1 hazard column. -/
theorem c8_adapter_witness :
    concordanceIndex [(1, 1), (2, 0)] (.mat [[0, 1], [1, 0]])
        (some ("incidence")) =
      (concordanceIndexCensored
        ([((1 : ℚ), (1 : ℚ)), (2, 0)].map (fun p => decide (p.2 ≠ 0)))
        ([((1 : ℚ), (1 : ℚ)), (2, 0)].map Prod.fst)
        ([[0, 1], [1, 0]].map (fun r =>
          -(if (some ("incidence") : Option String) = some ("incidence") then
            incidenceRiskSpec r else survivalRiskSpec r)))
        (1 / 100000000)).map (fun r => r.cindex) ∧
    concordanceIndex [(1, 1), (2, 0)] (.mat [[3], [4]]) none =
      (concordanceIndexCensored
        ([((1 : ℚ), (1 : ℚ)), (2, 0)].map (fun p => decide (p.2 ≠ 0)))
        ([((1 : ℚ), (1 : ℚ)), (2, 0)].map Prod.fst)
        ([[3], [4]].map (fun r => -(r.headD 0)))
        (1 / 100000000)).map (fun r => r.cindex) :=
  ⟨c8_adapter.1 [(1, 1), (2, 0)] [[0, 1], [1, 0]] (some ("incidence")) 2
      (by decide) (by decide) (by decide),
   c8_adapter.2 [(1, 1), (2, 0)] [[3], [4]] (by decide) (by decide)⟩

/-! ### Claim C9 -/

/-- C9 counterexample: `event_time = [3, 3]`, both events, estimates `[0, 5]`
with no pair tied within the tolerance.  Both the original and the negated
run return the NaN cindex (`none`), so "the negated run's cindex equals
1 minus the original cindex" fails: there is no real cindex at all. -/
theorem c9_counterexample :
    estimateConcordanceIndex [true, true] [3, 3] [0, 5] [1, 1]
      (1 / 100000000) = .ok ⟨none, 0, 0, 0, 0⟩ ∧
    estimateConcordanceIndex [true, true] [3, 3]
      ([0, 5].map (fun x : ℚ => -x)) [1, 1] (1 / 100000000) =
      .ok ⟨none, 0, 0, 0, 0⟩ ∧
    (∀ x : ℕ, x < 2 → ∀ y : ℕ, y < 2 → x ≠ y →
      ¬(|sampleEst [0, 5] x - sampleEst [0, 5] y| ≤ 1 / 100000000)) :=
  ⟨by with_unfolding_all rfl, by with_unfolding_all rfl,
   by with_unfolding_all decide⟩

/-- C9 (amended): on every validated input with at least one comparable pair
and no pair of estimates tied within the (nonnegative) tolerance, negating
every estimate swaps the concordant and discordant counts, keeps denominator
and tied_time unchanged, and turns the cindex `q` into `1 - q`. -/
theorem c9_negation_symmetry (ev : List Bool) (tm : List ℚ) (est : List ℚ)
    (tol : ℚ) (a b : ℕ) (htol : 0 ≤ tol)
    (hlen1 : ev.length = tm.length) (hlen2 : est.length = tm.length)
    (hn : 2 ≤ tm.length)
    (hties : ∀ x, x < tm.length → ∀ y, y < tm.length → x ≠ y →
      ¬(|sampleEst est x - sampleEst est y| ≤ tol))
    (ha : a < tm.length) (hb : b < tm.length)
    (hev : sampleEvent ev a = true)
    (hcmp : sampleTime tm a < sampleTime tm b ∨
      (sampleTime tm a = sampleTime tm b ∧ sampleEvent ev b = false)) :
    (theAccum ev tm (est.map (fun x => -x)) (List.replicate est.length 1)
        tol).concordant =
      (theAccum ev tm est (List.replicate est.length 1) tol).discordant ∧
    (theAccum ev tm (est.map (fun x => -x)) (List.replicate est.length 1)
        tol).discordant =
      (theAccum ev tm est (List.replicate est.length 1) tol).concordant ∧
    (theAccum ev tm (est.map (fun x => -x)) (List.replicate est.length 1)
        tol).denominator =
      (theAccum ev tm est (List.replicate est.length 1) tol).denominator ∧
    concordanceIndexCensored ev tm est tol =
      .ok ⟨some ((theAccum ev tm est (List.replicate est.length 1)
            tol).numerator /
          (theAccum ev tm est (List.replicate est.length 1) tol).denominator),
        (theAccum ev tm est (List.replicate est.length 1) tol).concordant,
        (theAccum ev tm est (List.replicate est.length 1) tol).discordant,
        (theAccum ev tm est (List.replicate est.length 1) tol).tied_risk,
        (theComparable ev tm).2⟩ ∧
    concordanceIndexCensored ev tm (est.map (fun x => -x)) tol =
      .ok ⟨some (1 - (theAccum ev tm est (List.replicate est.length 1)
            tol).numerator /
          (theAccum ev tm est (List.replicate est.length 1) tol).denominator),
        (theAccum ev tm est (List.replicate est.length 1) tol).discordant,
        (theAccum ev tm est (List.replicate est.length 1) tol).concordant,
        (theAccum ev tm est (List.replicate est.length 1) tol).tied_risk,
        (theComparable ev tm).2⟩ := by
  have hw : ∀ q ∈ (theComparable ev tm).1,
      wtOrd (List.replicate est.length 1) tm q.1 = 1 :=
    fun q hq => weights_one est tm hlen2 ((theComparable_keys ev tm q hq).2)
  have hmaskties : ∀ p ∈ (theComparable ev tm).1, ∀ k, k < tm.length →
      p.2 k = true → tieAt (estOrd est tm) tol p.1 k = false := by
    intro p hp k hk hmk
    obtain ⟨hA, -, -⟩ := theComparable_spec ev tm
    obtain ⟨hp1, hp2, hp3⟩ := hA p hp
    have hkne : k ≠ p.1 := by
      intro he
      rcases (hp3 k hk).mp hmk with h | ⟨h1, h2⟩
      · rw [he] at h
        exact absurd h (lt_irrefl _)
      · rw [he, hp2] at h2
        exact absurd h2 (by simp)
    have hone : ordAt tm k ≠ ordAt tm p.1 :=
      fun he => hkne (ordAt_inj tm hk hp1 he)
    have hx := hties (ordAt tm k) (ordAt_lt tm hk) (ordAt tm p.1)
      (ordAt_lt tm hp1) hone
    rw [tieAt, decide_eq_false_iff_not]
    exact hx
  obtain ⟨hn1, hn2, hn3, hn4, hn5⟩ := ciAccum_neg (estOrd est tm)
    (wtOrd (List.replicate est.length 1) tm) tol tm.length
    (theComparable ev tm).1 htol hw hmaskties
  have hAccN : theAccum ev tm (est.map (fun x => -x))
      (List.replicate est.length 1) tol =
      ciAccum (fun k => -(estOrd est tm k))
        (wtOrd (List.replicate est.length 1) tm) tol tm.length
        (theComparable ev tm).1 := by
    rw [theAccum, estOrd_neg est tm]
  have hpos := theAccum_den_pos ev tm est tol hlen2 ha hb hev hcmp
  have hc1 : (theAccum ev tm (est.map (fun x => -x))
      (List.replicate est.length 1) tol).concordant =
      (theAccum ev tm est (List.replicate est.length 1) tol).discordant := by
    rw [hAccN]; exact hn1
  have hc2 : (theAccum ev tm (est.map (fun x => -x))
      (List.replicate est.length 1) tol).discordant =
      (theAccum ev tm est (List.replicate est.length 1) tol).concordant := by
    rw [hAccN]; exact hn2
  have hc3 : (theAccum ev tm (est.map (fun x => -x))
      (List.replicate est.length 1) tol).tied_risk =
      (theAccum ev tm est (List.replicate est.length 1) tol).tied_risk := by
    rw [hAccN]; exact hn3
  have hc4 : (theAccum ev tm (est.map (fun x => -x))
      (List.replicate est.length 1) tol).denominator =
      (theAccum ev tm est (List.replicate est.length 1) tol).denominator := by
    rw [hAccN]; exact hn4
  have hc5 : (theAccum ev tm (est.map (fun x => -x))
      (List.replicate est.length 1) tol).numerator =
      (theAccum ev tm est (List.replicate est.length 1) tol).denominator -
        (theAccum ev tm est (List.replicate est.length 1) tol).numerator := by
    rw [hAccN]; exact hn5
  have hevmem := sampleEvent_mem ev (a := a) (by omega) hev
  refine ⟨hc1, hc2, hc4, ?_, ?_⟩
  · rw [concordanceIndexCensored_ok ev tm est tol hlen1 hlen2 hn hevmem,
      estimateCI_ok ev tm est (List.replicate est.length 1) tol
        (theComparable_ne_nil ev tm ha hb hev hcmp)
        (fun p hp => (theComparable_keys ev tm p hp).1),
      if_neg (ne_of_gt hpos)]
  · rw [concordanceIndexCensored_ok ev tm (est.map (fun x => -x)) tol hlen1
        (by rw [List.length_map]; exact hlen2) hn hevmem,
      estimateCI_ok ev tm (est.map (fun x => -x))
        (List.replicate (est.map (fun x => -x)).length 1) tol
        (theComparable_ne_nil ev tm ha hb hev hcmp)
        (fun p hp => (theComparable_keys ev tm p hp).1)]
    simp only [List.length_map]
    rw [hc5, hc4, hc1, hc2, hc3, if_neg (ne_of_gt hpos), sub_div,
      div_self (ne_of_gt hpos)]

/-- C9 witness: events `[T, F]`, times `[1, 2]`, estimates `[10, 1]` — one
comparable pair, no ties. -/
theorem c9_negation_symmetry_witness :
    (theAccum [true, false] [1, 2] ([10, 1].map (fun x : ℚ => -x))
        (List.replicate 2 1) (1 / 100000000)).concordant =
      (theAccum [true, false] [1, 2] [10, 1] (List.replicate 2 1)
        (1 / 100000000)).discordant ∧
    (theAccum [true, false] [1, 2] ([10, 1].map (fun x : ℚ => -x))
        (List.replicate 2 1) (1 / 100000000)).discordant =
      (theAccum [true, false] [1, 2] [10, 1] (List.replicate 2 1)
        (1 / 100000000)).concordant ∧
    (theAccum [true, false] [1, 2] ([10, 1].map (fun x : ℚ => -x))
        (List.replicate 2 1) (1 / 100000000)).denominator =
      (theAccum [true, false] [1, 2] [10, 1] (List.replicate 2 1)
        (1 / 100000000)).denominator ∧
    concordanceIndexCensored [true, false] [1, 2] [10, 1] (1 / 100000000) =
      .ok ⟨some ((theAccum [true, false] [1, 2] [10, 1] (List.replicate 2 1)
            (1 / 100000000)).numerator /
          (theAccum [true, false] [1, 2] [10, 1] (List.replicate 2 1)
            (1 / 100000000)).denominator),
        (theAccum [true, false] [1, 2] [10, 1] (List.replicate 2 1)
          (1 / 100000000)).concordant,
        (theAccum [true, false] [1, 2] [10, 1] (List.replicate 2 1)
          (1 / 100000000)).discordant,
        (theAccum [true, false] [1, 2] [10, 1] (List.replicate 2 1)
          (1 / 100000000)).tied_risk,
        (theComparable [true, false] [1, 2]).2⟩ ∧
    concordanceIndexCensored [true, false] [1, 2]
        ([10, 1].map (fun x : ℚ => -x)) (1 / 100000000) =
      .ok ⟨some (1 - (theAccum [true, false] [1, 2] [10, 1]
            (List.replicate 2 1) (1 / 100000000)).numerator /
          (theAccum [true, false] [1, 2] [10, 1] (List.replicate 2 1)
            (1 / 100000000)).denominator),
        (theAccum [true, false] [1, 2] [10, 1] (List.replicate 2 1)
          (1 / 100000000)).discordant,
        (theAccum [true, false] [1, 2] [10, 1] (List.replicate 2 1)
          (1 / 100000000)).concordant,
        (theAccum [true, false] [1, 2] [10, 1] (List.replicate 2 1)
          (1 / 100000000)).tied_risk,
        (theComparable [true, false] [1, 2]).2⟩ :=
  c9_negation_symmetry [true, false] [1, 2] [10, 1] (1 / 100000000) 0 1
    (by with_unfolding_all decide) rfl rfl (by decide)
    (by with_unfolding_all decide) (by decide) (by decide) (by decide)
    (by decide)

/-! ### Claim C10 -/

/-- C10 counterexample: handing the public entry point a flat sequence of
`n` floats (a 1-D prediction array) raises the IndexError of
`y_pred.shape[1]` instead of returning a concordance index. -/
theorem c10_counterexample :
    concordanceIndex [(1, 1), (2, 0)] (.vec [1, 2]) none =
      .error .shapeIndexError := rfl

/-- C10 (amended): the public entry point accepts predictions given as an
`n × 1` column of floats (one scalar per sample), treats them as
proportional-hazard risk scores, and — on adequate data with a comparable
pair — returns the concordance index without error. -/
theorem c10_column_accepted (y_true : List (ℚ × ℚ)) (rows : List (List ℚ))
    (a b : ℕ) (hrows : ∀ r ∈ rows, r.length = 1)
    (hlen : rows.length = y_true.length) (hn : 2 ≤ y_true.length)
    (ha : a < y_true.length) (hb : b < y_true.length)
    (hev : sampleEvent (y_true.map (fun p => decide (p.2 ≠ 0))) a = true)
    (hcmp : sampleTime (y_true.map Prod.fst) a <
        sampleTime (y_true.map Prod.fst) b ∨
      (sampleTime (y_true.map Prod.fst) a =
          sampleTime (y_true.map Prod.fst) b ∧
        sampleEvent (y_true.map (fun p => decide (p.2 ≠ 0))) b = false)) :
    concordanceIndex y_true (.mat rows) none =
      .ok (some ((theAccum (y_true.map (fun p => decide (p.2 ≠ 0)))
            (y_true.map Prod.fst) (rows.map (fun r => -(r.headD 0)))
            (List.replicate (rows.map (fun r => -(r.headD 0))).length 1)
            (1 / 100000000)).numerator /
          (theAccum (y_true.map (fun p => decide (p.2 ≠ 0)))
            (y_true.map Prod.fst) (rows.map (fun r => -(r.headD 0)))
            (List.replicate (rows.map (fun r => -(r.headD 0))).length 1)
            (1 / 100000000)).denominator)) := by
  have htm : (y_true.map Prod.fst).length = y_true.length := List.length_map _ _
  have ha' : a < (y_true.map Prod.fst).length := by omega
  have hb' : b < (y_true.map Prod.fst).length := by omega
  have hn' : 2 ≤ (y_true.map Prod.fst).length := by omega
  have hlen1 : (y_true.map (fun p => decide (p.2 ≠ 0))).length =
      (y_true.map Prod.fst).length := by
    rw [List.length_map, List.length_map]
  have hlen2 : (rows.map (fun r => -(r.headD 0))).length =
      (y_true.map Prod.fst).length := by
    rw [List.length_map, List.length_map]
    exact hlen
  obtain ⟨r0, rest, rfl⟩ : ∃ r0 rest, rows = r0 :: rest := by
    cases rows with
    | nil =>
      rw [List.length_nil] at hlen
      omega
    | cons x xs => exact ⟨x, xs, rfl⟩
  have hpos := theAccum_den_pos (y_true.map (fun p => decide (p.2 ≠ 0)))
    (y_true.map Prod.fst) ((r0 :: rest).map (fun r => -(r.headD 0)))
    (1 / 100000000) hlen2 ha' hb' hev hcmp
  rw [adapter_coxph y_true r0 rest (hrows r0 (List.mem_cons_self r0 rest)),
    concordanceIndexCensored_ok _ _ _ _ hlen1 hlen2 hn'
      (sampleEvent_mem _ (by rw [List.length_map]; omega) hev),
    estimateCI_ok _ _ _ _ _
      (theComparable_ne_nil _ _ ha' hb' hev hcmp)
      (fun p hp => (theComparable_keys _ _ p hp).1),
    if_neg (ne_of_gt hpos)]
  rfl

/-- C10 witness: two samples, `2 × 1` prediction column. -/
theorem c10_column_accepted_witness :
    concordanceIndex [(1, 1), (2, 0)] (.mat [[3], [4]]) none =
      .ok (some ((theAccum
            ([((1 : ℚ), (1 : ℚ)), (2, 0)].map (fun p => decide (p.2 ≠ 0)))
            ([((1 : ℚ), (1 : ℚ)), (2, 0)].map Prod.fst)
            ([[3], [4]].map (fun r => -(r.headD 0)))
            (List.replicate ([[(3 : ℚ)], [4]].map
              (fun r => -(r.headD 0))).length 1)
            (1 / 100000000)).numerator /
          (theAccum
            ([((1 : ℚ), (1 : ℚ)), (2, 0)].map (fun p => decide (p.2 ≠ 0)))
            ([((1 : ℚ), (1 : ℚ)), (2, 0)].map Prod.fst)
            ([[3], [4]].map (fun r => -(r.headD 0)))
            (List.replicate ([[(3 : ℚ)], [4]].map
              (fun r => -(r.headD 0))).length 1)
            (1 / 100000000)).denominator)) :=
  c10_column_accepted [(1, 1), (2, 0)] [[3], [4]] 0 1 (by decide) (by decide)
    (by decide) (by decide) (by decide) (by decide) (by decide)

/- Sanity check: the concrete scenario of spec section 8 (times `[1,2,2,3]`,
events `[T,T,F,T]`, estimates `[9,5,5,1]`): one tied-time pair, concordant 4,
tied risk 1, cindex (3 + 1 + 1/2) / 5 = 9/10. -/
example :
    concordanceIndexCensored [true, true, false, true] [1, 2, 2, 3]
      [9, 5, 5, 1] (1 / 100000000) =
    .ok ⟨some (9 / 10), 4, 0, 1, 1⟩ := by
  with_unfolding_all rfl

end CIndex
